import Mathlib

/-!
Verification of the mockturtle NPN-based resynthesis engine
(`include/mockturtle/algorithms/node_resynthesis/xag_npn.hpp`).

The engine is embedded shallowly:

* a 4-input truth table (kitty `static_truth_table<4u>`) is its raw 16-bit
  pattern, a `Nat` below `2 ^ 16`; row `n` of table `t` is `t.testBit n`,
  where the four input bits of a row are the low four bits of `n`;
* signals (`mockturtle::signal`) are node-id/complement pairs;
* the database network (`DatabaseNtk`, an XAG) is the list of its gates in
  creation order: node `0` is constant false, nodes `1..4` are the primary
  inputs, node `5 + i` is gate `i`;
* the target network `Ntk` is likewise a gate list over its own primary
  inputs, evaluated under an environment assigning booleans to those inputs;
* external collaborators that are not part of this repository's source
  (kitty's canonization and truth-table extension, `decode` over
  `xag_index_list`, `simulate_nodes`) are modelled from the specification;
  their doc comments say so explicitly.
-/

set_option maxRecDepth 40000
set_option maxHeartbeats 2000000

namespace XagNpn

/-- A 4-input truth table: the raw 16-bit pattern of kitty's
`static_truth_table<4u>` (`*tt.cbegin()`). -/
abbrev TT := Nat

/-- A signal: a node id together with a complement flag. -/
abbrev Sig := Nat × Bool

/-- Complement a signal (`create_not` on complemented-edge networks). -/
def notSig (s : Sig) : Sig := (s.1, !s.2)

/-- Build the low `k` bits of a truth table from a row-valued function. -/
def ofFunAux : Nat → (Nat → Bool) → Nat
  | 0, _ => 0
  | k + 1, h => 2 * ofFunAux k (fun i => h (i + 1)) + cond (h 0) 1 0

/-- Build a 16-bit truth table from its rows. -/
def ofFun (h : Nat → Bool) : TT := ofFunAux 16 h

/-- Pack four input bits into a row index (input 0 is the least significant
bit, as in kitty). -/
def idx4 (b0 b1 b2 b3 : Bool) : Nat :=
  cond b0 1 0 + 2 * cond b1 1 0 + 4 * cond b2 1 0 + 8 * cond b3 1 0

/-- Row index of an input valuation. -/
def idx4f (h : Nat → Bool) : Nat := idx4 (h 0) (h 1) (h 2) (h 3)

/-- Select one of four bits. -/
def bit4 (b0 b1 b2 b3 : Bool) (j : Nat) : Bool :=
  if j = 0 then b0 else if j = 1 then b1 else if j = 2 then b2 else b3

/-- Truth-table AND (bitwise over the 16-bit word). -/
def andTT (a b : TT) : TT := (a &&& b) % 2 ^ 16

/-- Truth-table XOR (bitwise over the 16-bit word). -/
def xorTT (a b : TT) : TT := (a ^^^ b) % 2 ^ 16

/-- Truth-table complement (`~t` on a 16-bit word). -/
def complTT (a : TT) : TT := (a ^^^ 65535) % 2 ^ 16

/-- The 24 input permutations, each with its inverse and an
adjacent-transposition program realising the inverse relabelling on row
indices: an entry `(l, linv, prog)` has `l[i]` the image of input `i`,
`linv` its inverse, and `swapsIdx prog m = idx4f (fun j => m.testBit linv[j])`
for every row `m < 16` (verified in `allPermData_facts`). -/
def allPermData : List (List Nat × List Nat × List Nat) :=
  [([0, 1, 2, 3], [0, 1, 2, 3], []),
   ([0, 1, 3, 2], [0, 1, 3, 2], [2]),
   ([0, 2, 1, 3], [0, 2, 1, 3], [1]),
   ([0, 2, 3, 1], [0, 3, 1, 2], [1, 2]),
   ([0, 3, 1, 2], [0, 2, 3, 1], [2, 1]),
   ([0, 3, 2, 1], [0, 3, 2, 1], [1, 2, 1]),
   ([1, 0, 2, 3], [1, 0, 2, 3], [0]),
   ([1, 0, 3, 2], [1, 0, 3, 2], [0, 2]),
   ([1, 2, 0, 3], [2, 0, 1, 3], [0, 1]),
   ([1, 2, 3, 0], [3, 0, 1, 2], [0, 1, 2]),
   ([1, 3, 0, 2], [2, 0, 3, 1], [0, 2, 1]),
   ([1, 3, 2, 0], [3, 0, 2, 1], [0, 1, 2, 1]),
   ([2, 0, 1, 3], [1, 2, 0, 3], [1, 0]),
   ([2, 0, 3, 1], [1, 3, 0, 2], [1, 0, 2]),
   ([2, 1, 0, 3], [2, 1, 0, 3], [0, 1, 0]),
   ([2, 1, 3, 0], [3, 1, 0, 2], [0, 1, 0, 2]),
   ([2, 3, 0, 1], [2, 3, 0, 1], [1, 0, 2, 1]),
   ([2, 3, 1, 0], [3, 2, 0, 1], [0, 1, 0, 2, 1]),
   ([3, 0, 1, 2], [1, 2, 3, 0], [2, 1, 0]),
   ([3, 0, 2, 1], [1, 3, 2, 0], [1, 2, 1, 0]),
   ([3, 1, 0, 2], [2, 1, 3, 0], [0, 2, 1, 0]),
   ([3, 1, 2, 0], [3, 1, 2, 0], [0, 1, 2, 1, 0]),
   ([3, 2, 0, 1], [2, 3, 1, 0], [1, 0, 2, 1, 0]),
   ([3, 2, 1, 0], [3, 2, 1, 0], [0, 1, 0, 2, 1, 0])]

/-- A candidate NPN transform: polarity word, then permutation, inverse
permutation and swap program. -/
abbrev Config := Nat × List Nat × List Nat × List Nat

/-- All 32 * 24 candidate NPN transforms, searched exhaustively. -/
def allConfigs : List Config :=
  (List.range 32).flatMap (fun ph => allPermData.map (fun d => (ph, d)))

/-- Complement input variable `j` of a 16-row truth table, as the masked
word shifts used by kitty's `flip_inplace`. -/
def flipVar (j : Nat) (t : TT) : TT :=
  if j = 0 then (t &&& 43690) >>> 1 ||| (t &&& 21845) <<< 1
  else if j = 1 then (t &&& 52428) >>> 2 ||| (t &&& 13107) <<< 2
  else if j = 2 then (t &&& 61680) >>> 4 ||| (t &&& 3855) <<< 4
  else (t &&& 65280) >>> 8 ||| (t &&& 255) <<< 8

/-- Exchange adjacent input variables `k` and `k + 1` of a 16-row truth
table, as the masked word shifts used by kitty's `swap_adjacent_inplace`. -/
def swapAdj (k : Nat) (t : TT) : TT :=
  if k = 0 then (t &&& 39321) ||| (t &&& 8738) <<< 1 ||| (t &&& 17476) >>> 1
  else if k = 1 then (t &&& 50115) ||| (t &&& 3084) <<< 2 ||| (t &&& 12336) >>> 2
  else (t &&& 61455) ||| (t &&& 240) <<< 4 ||| (t &&& 3840) >>> 4

/-- Action of `flipVar j` on a row index. -/
def flipIdx (j m : Nat) : Nat := m ^^^ (1 <<< j)

/-- Action of `swapAdj k` on a row index. -/
def swapIdx (k m : Nat) : Nat :=
  if m.testBit k = m.testBit (k + 1) then m else m ^^^ (3 <<< k)

/-- Run a swap program (head applied first to the table). -/
def applySwaps : List Nat → TT → TT
  | [], t => t
  | k :: rest, t => applySwaps rest (swapAdj k t)

/-- Row-index action of a swap program. -/
def swapsIdx : List Nat → Nat → Nat
  | [], m => m
  | k :: rest, m => swapIdx k (swapsIdx rest m)

/-- Run a list of input complementations (head applied first). -/
def applyFlipList : List Nat → TT → TT
  | [], t => t
  | j :: rest, t => applyFlipList rest (flipVar j t)

/-- Row-index action of a list of input complementations. -/
def flipsIdxL : List Nat → Nat → Nat
  | [], m => m
  | j :: rest, m => flipIdx j (flipsIdxL rest m)

/-- The input variables complemented by a polarity word. -/
def flipList (ph : Nat) : List Nat := (List.range 4).filter (fun j => ph.testBit j)

/-- Output complementation. -/
def outFlip (b : Bool) (t : TT) : TT := if b then complTT t else t

/-- The unique table `g` with `applyPolarityTT (applyPermTT g p) ph = f`
(the candidate representative produced by one search step), computed with
the word operations. -/
def invNPN (f : TT) (ph : Nat) (prog : List Nat) : TT :=
  applySwaps prog (applyFlipList (flipList ph) (outFlip (ph.testBit 4) (f % 2 ^ 16)))

/-- Apply an input permutation to a truth table: input `j` of the result
reads input `p[j]` of the argument's row. -/
def applyPermTT (r : TT) (p : List Nat) : TT :=
  ofFun fun n => r.testBit (idx4f (fun j => n.testBit (p.getD j 0)))

/-- Apply a polarity word: complement input `j` when bit `j` is set and the
output when bit 4 is set. -/
def applyPolarityTT (t : TT) (ph : Nat) : TT :=
  ofFun fun n => xor (ph.testBit 4)
    (t.testBit (idx4f (fun j => xor (n.testBit j) (ph.testBit j))))

/-- The exhaustive minimum search over all NPN transforms: keep the
numerically smallest candidate representative, first hit winning ties. -/
def pickMin (f : TT) : List Config → TT × Config → TT × Config
  | [], best => best
  | c :: rest, best =>
    match Nat.blt (invNPN f c.1 c.2.2.2) best.1 with
    | true => pickMin f rest (invNPN f c.1 c.2.2.2, c)
    | false => pickMin f rest best

/-- The identity transform, used to start the search. -/
def idConfig : Config := (0, [0, 1, 2, 3], [0, 1, 2, 3], [])

/-- Modelled from the spec: kitty `exact_npn_canonization` (external
collaborator).  Exhaustive exact search; returns the representative, the
polarity word and the permutation. -/
def exact_npn_canonization (f : TT) : TT × Nat × List Nat :=
  match pickMin f allConfigs (invNPN f idConfig.1 idConfig.2.2.2, idConfig) with
  | (r, ph, p, _) => (r, ph, p)

/-- The canonical table `_repr`, built by `build_classes`: entry `t` holds the
canonization of the function whose raw bit pattern is `t` (the loop in
`build_classes` enumerates all 65536 patterns with `next_inplace`). -/
@[reducible] def repr_table (t : Nat) : TT × Nat × List Nat :=
  exact_npn_canonization t

/-- A dynamic truth table: a width and the raw bit pattern of its
`2 ^ numVars` rows. -/
structure DynTT where
  numVars : Nat
  bits : Nat
deriving DecidableEq

/-- Modelled from the spec: kitty `extend_to<4u>` (external collaborator).
The spec's truth-table codec provides "extension from narrower widths":
a narrower function is extended to width 4 by replicating its pattern, so
the padded inputs are don't-cares.  A function wider than 4 violates the
codec's precondition; this is modelled as `none`. -/
def extend_to4 (d : DynTT) : Option TT :=
  if d.numVars ≤ 4 then some (ofFun (fun n => d.bits.testBit (n % 2 ^ d.numVars)))
  else none

/-! ### The library network

`decode` over `xag_index_list` (from `utils/index_list.hpp`) and
`simulate_nodes` (from `algorithms/simulation.hpp`) are code of this
repository that is not under `src/`; they are modelled from the spec
(sections 4.2, 4.3 and 6).  Node `0` is constant false, nodes `1..4` are
the four primary inputs, node `5 + i` is gate `i` in creation order. -/

/-- A decoded library gate: its two fanin literals (`lit = 2 * node + compl`)
and its kind. -/
structure LibGate where
  l0 : Nat
  l1 : Nat
  is_xor : Bool
deriving DecidableEq

/-- The decoded library DAG (the `DatabaseNtk`): gates in creation order. -/
structure LibGraph where
  gates : List LibGate
deriving DecidableEq

/-- Number of nodes of the library network (`_db.size()`). -/
def numLibNodes (lib : LibGraph) : Nat := 5 + lib.gates.length

/-- Modelled from the spec: gate decoding for `xag_index_list`.  Each pair of
literals describes one gate; a literal referring to a node id not yet defined
(a forward reference) or a truncated pair is rejected.  The gate kind is
recovered structurally from the pair; the exact convention (first literal
greater than the second encodes XOR) is pinned from the reference decoder as
spec section 9 requires. -/
def decodeGates : Nat → List Nat → Option (List LibGate)
  | _, [] => some []
  | next, a :: b :: rest =>
    if a >>> 1 < next ∧ b >>> 1 < next then
      match decodeGates (next + 1) rest with
      | some gs => some (⟨a, b, decide (b < a)⟩ :: gs)
      | none => none
    else none
  | _, [_] => none

/-- Modelled from the spec: `decode` of an `xag_index_list` (section 6).
Element 0 packs `(gate_count << 16) | (reserved_flag << 8) | pi_count`; the
engine's library has exactly 4 primary inputs.  Malformed encodings
(wrong arity, truncated pairs, forward references) are fatal. -/
def decode (data : List Nat) : Option LibGraph :=
  match data with
  | [] => none
  | hdr :: rest =>
    if hdr &&& 255 = 4 ∧ rest.length = 2 * (hdr >>> 16) then
      match decodeGates 5 rest with
      | some gs => some ⟨gs⟩
      | none => none
    else none

/-- Every fanin of a gate refers to an already-defined node. -/
def topological (lib : LibGraph) : Prop :=
  ∀ k g, lib.gates[k]? = some g → g.l0 >>> 1 < 5 + k ∧ g.l1 >>> 1 < 5 + k

/-- A generic scan over a gate list, accumulating one value per node. -/
def scanGates {α β : Type} (step : List α → β → α) : List α → List β → List α
  | acc, [] => acc
  | acc, g :: gs => scanGates step (acc ++ [step acc g]) gs

/-- Truth tables of constant false and the four primary inputs. -/
def libBase : List TT := [0, 43690, 52428, 61680, 65280]

/-- Value of a fanin literal over per-node truth tables. -/
def sigValTT (vals : List TT) (lit : Nat) : TT :=
  if lit &&& 1 = 1 then complTT (vals.getD (lit >>> 1) 0) else vals.getD (lit >>> 1) 0

/-- One simulation step: combine the two fanin tables per the gate kind. -/
def gateTT (vals : List TT) (g : LibGate) : TT :=
  if g.is_xor then xorTT (sigValTT vals g.l0) (sigValTT vals g.l1)
  else andTT (sigValTT vals g.l0) (sigValTT vals g.l1)

/-- Modelled from the spec: `simulate_nodes` — one topological pass computing
every node's function over the 4 primary inputs. -/
def simulate_nodes (lib : LibGraph) : List TT := scanGates gateTT libBase lib.gates

/-- The simulated function of library node `n`. -/
def libTT (lib : LibGraph) (n : Nat) : TT := (simulate_nodes lib).getD n 0

/-- Value of a fanin literal, expressed through `libTT`. -/
def libSigTT (lib : LibGraph) (lit : Nat) : TT :=
  if lit &&& 1 = 1 then complTT (libTT lib (lit >>> 1)) else libTT lib (lit >>> 1)

/-- The registration decision of `build_db` for node `n`: register the node
uncomplemented under its simulated function if that function is its own
canonical representative, else register it complemented under the complement
if the complement is its own representative, else skip. -/
def regEntry (lib : LibGraph) (n : Nat) : Option (TT × Sig) :=
  if (exact_npn_canonization (libTT lib n)).1 = libTT lib n then
    some (libTT lib n, (n, false))
  else if (exact_npn_canonization (complTT (libTT lib n))).1
      = complTT (libTT lib n) then
    some (complTT (libTT lib n), (n, true))
  else none

/-- One `foreach_node` step of `build_db`: append the registration of node
`n`, if any (`insert` of a fresh key or `push_back` on an existing key). -/
def regStep {β : Type} (f : Nat → Option β) (acc : List β) (n : Nat) : List β :=
  match f n with
  | some e => acc ++ [e]
  | none => acc

/-- `build_db`: the class index `_repr_to_signal` as a flat registration list
(key, signal) in discovery order (`foreach_node` over all node ids). -/
def build_db (lib : LibGraph) : List (TT × Sig) :=
  (List.range (numLibNodes lib)).foldl (regStep (regEntry lib)) []

/-- Lookup of `_repr_to_signal`: all signals registered under key `k`, in
discovery order; the key is absent exactly when this list is empty. -/
def classLookup (idx : List (TT × Sig)) (k : TT) : List Sig :=
  (idx.filter (fun e => e.1 == k)).map (fun e => e.2)

/-- Un-complement a simulated function per a stored complement flag. -/
def uncomplTT (t : TT) (c : Bool) : TT := if c then complTT t else t

/-- A created target gate: kind and the two fanin signals. -/
structure TGate where
  is_xor : Bool
  a : Sig
  b : Sig
deriving DecidableEq

/-- The target network state. -/
structure TNet where
  pis : Nat
  gates : List TGate
deriving DecidableEq

/-- Number of nodes of the target network. -/
def numN (st : TNet) : Nat := 1 + st.pis + st.gates.length

/-- Value of a signal over per-node values (complemented edges negate). -/
def sigVal (vals : List Bool) (s : Sig) : Bool := xor s.2 (vals.getD s.1 false)

/-- Value of a created gate from the values of the nodes before it. -/
def gateVal (vals : List Bool) (g : TGate) : Bool :=
  if g.is_xor then xor (sigVal vals g.a) (sigVal vals g.b)
  else (sigVal vals g.a && sigVal vals g.b)

/-- Per-node values of the target network under `env`. -/
def tvals (st : TNet) (env : Nat → Bool) : List Bool :=
  scanGates gateVal (false :: (List.range st.pis).map env) st.gates

/-- Simulate a signal of the target network under `env`. -/
def tEval (st : TNet) (env : Nat → Bool) (s : Sig) : Bool := sigVal (tvals st env) s

/-- `create_and` / `create_xor`: append a gate; the new node's signal is
`newSig st`. -/
def addGate (st : TNet) (x : Bool) (a b : Sig) : TNet :=
  ⟨st.pis, st.gates ++ [⟨x, a, b⟩]⟩

/-- The signal of the node created by `addGate st`. -/
def newSig (st : TNet) : Sig := (numN st, false)

/-- `st'` extends `st`: same inputs, the gate list grew at the end. -/
def TExt (st st' : TNet) : Prop :=
  st'.pis = st.pis ∧ ∃ tl, st'.gates = st.gates ++ tl

/-- The per-query memo `db_to_ntk`, an association list from library node id
to already-materialized target signal. -/
def lookupM : List (Nat × Sig) → Nat → Option Sig
  | [], _ => none
  | p :: rest, n => if p.1 = n then some p.2 else lookupM rest n

/-- `copy_db_entry`: memoized recursive copy of library node `n` into the
target network.  The structural recursion is bounded by an explicit fuel;
the library is topologically ordered, so fuel `n + 1` always suffices
(`copy_db_entry_fuel` below). -/
def copy_db_entry (lib : LibGraph) :
    Nat → List (Nat × Sig) → TNet → Nat → Sig × List (Nat × Sig) × TNet
  | 0, memo, st, _ => ((0, false), memo, st)
  | fuel + 1, memo, st, n =>
    match lookupM memo n with
    | some s => (s, memo, st)
    | none =>
      if n < 5 then ((0, false), memo, st)
      else
        match lib.gates[n - 5]? with
        | none => ((0, false), memo, st)
        | some g =>
          let r0 := copy_db_entry lib fuel memo st (g.l0 >>> 1)
          let s0 := if g.l0 &&& 1 = 1 then notSig r0.1 else r0.1
          let r1 := copy_db_entry lib fuel r0.2.1 r0.2.2 (g.l1 >>> 1)
          let s1 := if g.l1 &&& 1 = 1 then notSig r1.1 else r1.1
          (newSig r1.2.2, (n, newSig r1.2.2) :: r1.2.1, addGate r1.2.2 g.is_xor s0 s1)

/-- Invariant of the per-query memo: every recorded signal is a valid node of
the target state and evaluates to its library node's function at row `W`. -/
def memoInv (lib : LibGraph) (env : Nat → Bool) (W : Nat) (st : TNet)
    (memo : List (Nat × Sig)) : Prop :=
  ∀ p ∈ memo, p.2.1 < numN st ∧ tEval st env p.2 = (libTT lib p.1).testBit W

/-- The memo contains the constant node and the four primary inputs. -/
def seeded (memo : List (Nat × Sig)) : Prop := ∀ i < 5, (lookupM memo i).isSome

/-- The leaf buffer `pis`: four signals initialized to the constant-false
signal, the supplied leaves copied over the front (`std::copy`). -/
def pisOf (leaves : List Sig) : Nat → Sig := fun i => leaves.getD i (0, false)

/-- The unchecked copy of the leaf range into the fixed 4-slot buffer:
`std.copy` writes position `j` of the buffer for every `j` below the number
of supplied leaves; more than 4 leaves overflow the buffer (undefined
behaviour, modelled as `none`). -/
def seedPis (leaves : List Sig) : Option (Nat → Sig) :=
  if leaves.length ≤ 4 then some (pisOf leaves) else none

/-- The target signal bound to database primary input `i` (line 167 of
`xag_npn.hpp`): `phase >> perm[i] & 1 ? create_not(pis[perm[i]]) :
pis[perm[i]]`. -/
def seedSigOf (phase : Nat) (perm : List Nat) (pis : Nat → Sig) (i : Nat) : Sig :=
  if phase.testBit (perm.getD i 0) then notSig (pis (perm.getD i 0))
  else pis (perm.getD i 0)

/-- The seeded per-query context `db_to_ntk`: the constant node and the four
database primary inputs. -/
def seedMemo (phase : Nat) (perm : List Nat) (pis : Nat → Sig) :
    List (Nat × Sig) :=
  [(0, (0, false)), (1, seedSigOf phase perm pis 0), (2, seedSigOf phase perm pis 1),
   (3, seedSigOf phase perm pis 2), (4, seedSigOf phase perm pis 3)]

/-- One candidate of the query loop: reconstruct the candidate's node and
complement the result when the candidate's complement flag differs from the
output-polarity bit (`_db.is_complemented(cand) != (phase >> 4 & 1)`). -/
def cand_step (lib : LibGraph) (phase : Nat) (memo : List (Nat × Sig))
    (st : TNet) (cand : Sig) : Sig × List (Nat × Sig) × TNet :=
  let r := copy_db_entry lib (cand.1 + 1) memo st cand.1
  (if xor cand.2 (phase.testBit 4) then notSig r.1 else r.1, r.2.1, r.2.2)

/-- The candidate loop: emit each reconstructed candidate to `fn`; when `fn`
returns false, return immediately.  The result is the list of emitted
signals in order, and the final target network. -/
def emitLoop (lib : LibGraph) (phase : Nat) (fn : Sig → Bool) :
    List Sig → List (Nat × Sig) → TNet → List Sig × TNet
  | [], _, st => ([], st)
  | c :: rest, memo, st =>
    let r := cand_step lib phase memo st c
    if fn r.1 then
      let rr := emitLoop lib phase fn rest r.2.1 r.2.2
      (r.1 :: rr.1, rr.2)
    else ([r.1], r.2.2)

/-- `xag_npn_resynthesis::operator()` (lines 146-178 of `xag_npn.hpp`):
extend the query function to width 4, look up its canonization, return with
no candidates when the representative's class is absent, otherwise seed the
query context and run the candidate loop.  `none` models a failed external
precondition (a function wider than 4, or more than 4 leaves). -/
def xag_npn_op (lib : LibGraph) (st : TNet) (d : DynTT) (leaves : List Sig)
    (fn : Sig → Bool) : Option (List Sig × TNet) :=
  match extend_to4 d with
  | none => none
  | some tt4 =>
    match repr_table tt4 with
    | (reprT, phase, perm) =>
      if classLookup (build_db lib) reprT = [] then some ([], st)
      else
        match seedPis leaves with
        | none => none
        | some pis =>
          some (emitLoop lib phase fn (classLookup (build_db lib) reprT)
            (seedMemo phase perm pis) st)

def ceData : List Nat := [65540, 7, 9]

def ceLib : LibGraph := ⟨[⟨7, 9, false⟩]⟩

def st0 : TNet := ⟨4, []⟩

def ceLeaves : List Sig := [(1, false), (2, false), (3, false), (4, false)]

def ceLeaves5 : List Sig := [(1, false), (2, false), (3, false), (4, false), (4, true)]

def ceMemo0 : List (Nat × Sig) :=
  [(0, (0, false)), (1, (1, false)), (2, (2, false)), (3, (3, false)), (4, (4, false))]

/-- The seeding rule exactly as the claim words it: primary input `i` bound
to `leaves[perm[i]]`, complemented iff bit `i` (not bit `perm[i]`) of the
polarity is set.  Compared against the implementation's `seedSigOf`. -/
def claimedSeedSigOf (phase : Nat) (perm : List Nat) (pis : Nat → Sig)
    (i : Nat) : Sig :=
  if phase.testBit i then notSig (pis (perm.getD i 0)) else pis (perm.getD i 0)

/-! ### Theorems -/

theorem ofFunAux_lt (k : Nat) (h : Nat → Bool) : ofFunAux k h < 2 ^ k := by
  induction k generalizing h with
  | zero => simp [ofFunAux]
  | succ k ih =>
    have hk := ih (fun i => h (i + 1))
    cases hb : h 0 <;>
      (simp only [ofFunAux, hb, cond_false, cond_true, Nat.pow_succ]; omega)

theorem ofFunAux_testBit (k : Nat) (h : Nat → Bool) (n : Nat) (hn : n < k) :
    (ofFunAux k h).testBit n = h n := by
  induction k generalizing h n with
  | zero => omega
  | succ k ih =>
    cases n with
    | zero =>
      cases hb : h 0 <;>
        simp [ofFunAux, hb, Nat.testBit_zero, Nat.mul_add_mod]
    | succ n =>
      have hdiv : (2 * ofFunAux k (fun i => h (i + 1)) + cond (h 0) 1 0) / 2
          = ofFunAux k (fun i => h (i + 1)) := by
        cases h 0 <;> (simp; try omega)
      rw [show n + 1 = Nat.succ n from rfl, Nat.testBit_succ]
      simp only [ofFunAux, hdiv]
      exact ih (fun i => h (i + 1)) n (by omega)

theorem ofFun_testBit (h : Nat → Bool) (n : Nat) (hn : n < 16) :
    (ofFun h).testBit n = h n := ofFunAux_testBit 16 h n hn

theorem ofFun_lt (h : Nat → Bool) : ofFun h < 2 ^ 16 := ofFunAux_lt 16 h

theorem idx4_lt : ∀ b0 b1 b2 b3, idx4 b0 b1 b2 b3 < 16 := by decide

theorem idx4_testBit :
    ∀ b0 b1 b2 b3, ∀ j < 4, (idx4 b0 b1 b2 b3).testBit j = bit4 b0 b1 b2 b3 j := by
  decide

theorem bit4_comp (h : Nat → Bool) (j : Nat) (hj : j < 4) :
    bit4 (h 0) (h 1) (h 2) (h 3) j = h j := by
  interval_cases j <;> rfl

theorem idx4f_lt (h : Nat → Bool) : idx4f h < 16 := idx4_lt (h 0) (h 1) (h 2) (h 3)

theorem idx4f_testBit (h : Nat → Bool) (j : Nat) (hj : j < 4) :
    (idx4f h).testBit j = h j := by
  rw [idx4f, idx4_testBit (h 0) (h 1) (h 2) (h 3) j hj, bit4_comp h j hj]

theorem idx4f_testBit_self : ∀ n < 16, idx4f (fun j => Nat.testBit n j) = n := by
  decide

theorem idx4f_congr (h h' : Nat → Bool) (he : ∀ j < 4, h j = h' j) :
    idx4f h = idx4f h' := by
  simp only [idx4f, he 0 (by omega), he 1 (by omega), he 2 (by omega), he 3 (by omega)]

theorem testBit_ge16 {a : Nat} (ha : a < 2 ^ 16) {i : Nat} (hi : 16 ≤ i) :
    a.testBit i = false :=
  Nat.testBit_lt_two_pow (Nat.lt_of_lt_of_le ha (Nat.pow_le_pow_right (by omega) hi))

theorem tt_ext {a b : TT} (ha : a < 2 ^ 16) (hb : b < 2 ^ 16)
    (h : ∀ n < 16, a.testBit n = b.testBit n) : a = b := by
  apply Nat.eq_of_testBit_eq
  intro i
  by_cases hi : i < 16
  · exact h i hi
  · rw [testBit_ge16 ha (by omega), testBit_ge16 hb (by omega)]

theorem testBit_65535 : ∀ n < 16, Nat.testBit 65535 n = true := by decide

theorem andTT_testBit (a b : TT) (n : Nat) (hn : n < 16) :
    (andTT a b).testBit n = (a.testBit n && b.testBit n) := by
  rw [show andTT a b = (a &&& b) % 2 ^ 16 from rfl, Nat.testBit_mod_two_pow,
    Nat.testBit_and]
  simp [hn]

theorem xorTT_testBit (a b : TT) (n : Nat) (hn : n < 16) :
    (xorTT a b).testBit n = xor (a.testBit n) (b.testBit n) := by
  rw [show xorTT a b = (a ^^^ b) % 2 ^ 16 from rfl, Nat.testBit_mod_two_pow,
    Nat.testBit_xor]
  simp [hn]

theorem complTT_testBit (a : TT) (n : Nat) (hn : n < 16) :
    (complTT a).testBit n = !(a.testBit n) := by
  rw [show complTT a = (a ^^^ 65535) % 2 ^ 16 from rfl, Nat.testBit_mod_two_pow,
    Nat.testBit_xor]
  simp [hn, testBit_65535 n hn]

theorem andTT_lt (a b : TT) : andTT a b < 2 ^ 16 := Nat.mod_lt _ (by norm_num)

theorem xorTT_lt (a b : TT) : xorTT a b < 2 ^ 16 := Nat.mod_lt _ (by norm_num)

theorem complTT_lt (a : TT) : complTT a < 2 ^ 16 := Nat.mod_lt _ (by norm_num)

theorem complTT_involutive {a : TT} (ha : a < 2 ^ 16) : complTT (complTT a) = a := by
  apply tt_ext (complTT_lt _) ha
  intro n hn
  rw [complTT_testBit _ n hn, complTT_testBit _ n hn, Bool.not_not]

/-! ### NPN canonization

Modelled from the spec: kitty's `exact_npn_canonization` is an external
collaborator (not part of this repository's source under `src/`).  The spec
describes it as an exact, exhaustive search over the NPN group of input
permutations and input/output complementations, returning
`(representative, polarity, permutation)` such that applying the stored
permutation and then the stored polarity to the representative reproduces the
input function, with the representative numerically minimal in the class.
The direction of the permutation and the indexing of the polarity bits are
pinned by their use in `xag_npn_resynthesis::operator()` (the seeding loop
`phase >> perm[i] & 1 ? create_not(pis[perm[i]]) : pis[perm[i]]`), i.e.
`f(x0..x3) = polarity[4] XOR repr(y0..y3)` where representative input `i`
reads `x[perm[i]] XOR polarity[perm[i]]`. -/

theorem maskShiftRight_le (t A d : Nat) : (t &&& A) >>> d ≤ A >>> d := by
  rw [Nat.shiftRight_eq_div_pow, Nat.shiftRight_eq_div_pow]
  exact Nat.div_le_div_right Nat.and_le_right

theorem maskShiftLeft_le (t A d : Nat) : (t &&& A) <<< d ≤ A <<< d := by
  rw [Nat.shiftLeft_eq, Nat.shiftLeft_eq]
  exact Nat.mul_le_mul_right _ Nat.and_le_right

theorem flipVar_lt (j t : Nat) : flipVar j t < 2 ^ 16 := by
  rw [flipVar]
  repeat' split
  all_goals
    exact Nat.or_lt_two_pow
      (lt_of_le_of_lt (maskShiftRight_le _ _ _) (by decide))
      (lt_of_le_of_lt (maskShiftLeft_le _ _ _) (by decide))

theorem swapAdj_lt (k t : Nat) : swapAdj k t < 2 ^ 16 := by
  rw [swapAdj]
  repeat' split
  all_goals
    exact Nat.or_lt_two_pow
      (Nat.or_lt_two_pow
        (lt_of_le_of_lt Nat.and_le_right (by decide))
        (lt_of_le_of_lt (maskShiftLeft_le _ _ _) (by decide)))
      (lt_of_le_of_lt (maskShiftRight_le _ _ _) (by decide))

theorem applyFlipList_lt (fl : List Nat) (t : TT) (ht : t < 2 ^ 16) :
    applyFlipList fl t < 2 ^ 16 := by
  induction fl generalizing t with
  | nil => exact ht
  | cons j rest ih => exact ih _ (flipVar_lt j t)

theorem applySwaps_lt (prog : List Nat) (t : TT) (ht : t < 2 ^ 16) :
    applySwaps prog t < 2 ^ 16 := by
  induction prog generalizing t with
  | nil => exact ht
  | cons k rest ih => exact ih _ (swapAdj_lt k t)

theorem outFlip_lt (b : Bool) (t : TT) (ht : t < 2 ^ 16) : outFlip b t < 2 ^ 16 := by
  cases b with
  | false => exact ht
  | true => exact complTT_lt t

theorem invNPN_lt (f : TT) (ph : Nat) (prog : List Nat) : invNPN f ph prog < 2 ^ 16 :=
  applySwaps_lt _ _ (applyFlipList_lt _ _ (outFlip_lt _ _ (Nat.mod_lt _ (by norm_num))))

theorem flip_bit_hi (t A B d m : Nat) (h1 : A.testBit (d + m) = true)
    (h2 : m < d ∨ B.testBit (m - d) = false) :
    ((t &&& A) >>> d ||| (t &&& B) <<< d).testBit m = t.testBit (d + m) := by
  simp only [Nat.testBit_or, Nat.testBit_shiftRight, Nat.testBit_shiftLeft,
    Nat.testBit_and, h1]
  rcases h2 with h2 | h2
  · rw [decide_eq_false (by omega : ¬ m ≥ d)]
    simp
  · rw [h2]
    simp

theorem flip_bit_lo (t A B d m : Nat) (h1 : A.testBit (d + m) = false)
    (h2 : d ≤ m) (h3 : B.testBit (m - d) = true) :
    ((t &&& A) >>> d ||| (t &&& B) <<< d).testBit m = t.testBit (m - d) := by
  simp only [Nat.testBit_or, Nat.testBit_shiftRight, Nat.testBit_shiftLeft,
    Nat.testBit_and, h1, h3, decide_eq_true (h2 : m ≥ d)]
  simp

theorem tri_bit_keep (t K U D d m : Nat) (h1 : K.testBit m = true)
    (h2 : m < d ∨ U.testBit (m - d) = false) (h3 : D.testBit (d + m) = false) :
    ((t &&& K) ||| (t &&& U) <<< d ||| (t &&& D) >>> d).testBit m = t.testBit m := by
  simp only [Nat.testBit_or, Nat.testBit_shiftRight, Nat.testBit_shiftLeft,
    Nat.testBit_and, h1, h3]
  rcases h2 with h2 | h2
  · rw [decide_eq_false (by omega : ¬ m ≥ d)]
    simp
  · rw [h2]
    simp

theorem tri_bit_up (t K U D d m : Nat) (h1 : K.testBit m = false)
    (h2 : d ≤ m) (h3 : U.testBit (m - d) = true) (h4 : D.testBit (d + m) = false) :
    ((t &&& K) ||| (t &&& U) <<< d ||| (t &&& D) >>> d).testBit m
      = t.testBit (m - d) := by
  simp only [Nat.testBit_or, Nat.testBit_shiftRight, Nat.testBit_shiftLeft,
    Nat.testBit_and, h1, h3, h4, decide_eq_true (h2 : m ≥ d)]
  simp

theorem tri_bit_dn (t K U D d m : Nat) (h1 : K.testBit m = false)
    (h2 : m < d ∨ U.testBit (m - d) = false) (h3 : D.testBit (d + m) = true) :
    ((t &&& K) ||| (t &&& U) <<< d ||| (t &&& D) >>> d).testBit m
      = t.testBit (d + m) := by
  simp only [Nat.testBit_or, Nat.testBit_shiftRight, Nat.testBit_shiftLeft,
    Nat.testBit_and, h1, h3]
  rcases h2 with h2 | h2
  · rw [decide_eq_false (by omega : ¬ m ≥ d)]
    simp
  · rw [h2]
    simp

theorem flipVar_testBit :
    ∀ j < 4, ∀ m < 16, ∀ t : Nat,
      (flipVar j t).testBit m = t.testBit (flipIdx j m) := by
  intro j hj m hm t
  interval_cases j <;> interval_cases m <;>
    simp only [flipVar, Nat.reduceEqDiff, reduceIte, if_true, if_false] <;>
    (first
      | (rw [flip_bit_hi] <;> first | rfl | decide)
      | (rw [flip_bit_lo] <;> first | rfl | decide))

theorem swapAdj_testBit :
    ∀ k < 3, ∀ m < 16, ∀ t : Nat,
      (swapAdj k t).testBit m = t.testBit (swapIdx k m) := by
  intro k hk m hm t
  interval_cases k <;> interval_cases m <;>
    simp only [swapAdj, Nat.reduceEqDiff, reduceIte, if_true, if_false] <;>
    (first
      | (rw [tri_bit_keep] <;> first | rfl | decide)
      | (rw [tri_bit_up] <;> first | rfl | decide)
      | (rw [tri_bit_dn] <;> first | rfl | decide))

theorem flipIdx_lt : ∀ j < 4, ∀ m < 16, flipIdx j m < 16 := by decide

theorem swapIdx_lt : ∀ k < 3, ∀ m < 16, swapIdx k m < 16 := by decide

theorem flipsIdxL_lt (fl : List Nat) (hfl : ∀ j ∈ fl, j < 4) (m : Nat)
    (hm : m < 16) : flipsIdxL fl m < 16 := by
  induction fl with
  | nil => exact hm
  | cons j rest ih =>
    exact flipIdx_lt j (hfl j (List.mem_cons_self _ _)) _
      (ih (fun x hx => hfl x (List.mem_cons_of_mem _ hx)))

theorem swapsIdx_lt (prog : List Nat) (hp : ∀ k ∈ prog, k < 3) (m : Nat)
    (hm : m < 16) : swapsIdx prog m < 16 := by
  induction prog with
  | nil => exact hm
  | cons k rest ih =>
    exact swapIdx_lt k (hp k (List.mem_cons_self _ _)) _
      (ih (fun x hx => hp x (List.mem_cons_of_mem _ hx)))

theorem applyFlipList_testBit (fl : List Nat) (hfl : ∀ j ∈ fl, j < 4)
    (t m : Nat) (hm : m < 16) :
    (applyFlipList fl t).testBit m = t.testBit (flipsIdxL fl m) := by
  induction fl generalizing t with
  | nil => rfl
  | cons j rest ih =>
    rw [applyFlipList, ih (fun x hx => hfl x (List.mem_cons_of_mem _ hx)),
      flipVar_testBit j (hfl j (List.mem_cons_self _ _)) _
        (flipsIdxL_lt rest (fun x hx => hfl x (List.mem_cons_of_mem _ hx)) m hm)]
    rfl

theorem applySwaps_testBit (prog : List Nat) (hp : ∀ k ∈ prog, k < 3)
    (t m : Nat) (hm : m < 16) :
    (applySwaps prog t).testBit m = t.testBit (swapsIdx prog m) := by
  induction prog generalizing t with
  | nil => rfl
  | cons k rest ih =>
    rw [applySwaps, ih (fun x hx => hp x (List.mem_cons_of_mem _ hx)),
      swapAdj_testBit k (hp k (List.mem_cons_self _ _)) _
        (swapsIdx_lt rest (fun x hx => hp x (List.mem_cons_of_mem _ hx)) m hm)]
    rfl

theorem flipList_lt (ph : Nat) : ∀ j ∈ flipList ph, j < 4 := by
  intro j hj
  exact List.mem_range.mp (List.mem_filter.mp hj).1

theorem outFlip_mod_testBit (b : Bool) (f m : Nat) (hm : m < 16) :
    (outFlip b (f % 2 ^ 16)).testBit m = xor b (f.testBit m) := by
  cases b with
  | false =>
    show (f % 2 ^ 16).testBit m = xor false (f.testBit m)
    rw [Nat.testBit_mod_two_pow, Bool.false_xor]
    simp [hm]
  | true =>
    show (complTT (f % 2 ^ 16)).testBit m = xor true (f.testBit m)
    rw [complTT_testBit _ m hm, Nat.testBit_mod_two_pow, Bool.true_xor]
    simp [hm]

/-- Index-level description of the complementation pass: its effect on row
`m` is to XOR the low four polarity bits into `m`. -/
theorem flipsIdx_fact :
    ∀ ph < 32, ∀ m < 16,
      flipsIdxL (flipList ph) m
        = idx4f (fun j => xor (m.testBit j) (ph.testBit j)) := by
  decide

theorem allPermData_facts :
    ∀ d ∈ allPermData,
      (∀ j < 4, d.1.getD j 0 < 4 ∧ d.2.1.getD j 0 < 4 ∧
        d.1.getD (d.2.1.getD j 0) 0 = j ∧ d.2.1.getD (d.1.getD j 0) 0 = j) ∧
      (∀ k ∈ d.2.2, k < 3) ∧
      (∀ m < 16, swapsIdx d.2.2 m = idx4f (fun j => m.testBit (d.2.1.getD j 0))) := by
  decide

theorem allConfigs_valid :
    ∀ c ∈ allConfigs,
      c.1 < 32 ∧
      (∀ j < 4, c.2.1.getD j 0 < 4 ∧ c.2.2.1.getD j 0 < 4 ∧
        c.2.1.getD (c.2.2.1.getD j 0) 0 = j ∧ c.2.2.1.getD (c.2.1.getD j 0) 0 = j) ∧
      (∀ k ∈ c.2.2.2, k < 3) ∧
      (∀ m < 16, swapsIdx c.2.2.2 m
        = idx4f (fun j => m.testBit (c.2.2.1.getD j 0))) := by
  intro c hc
  rw [allConfigs] at hc
  obtain ⟨ph, hph, hc2⟩ := List.mem_flatMap.mp hc
  obtain ⟨d, hd, rfl⟩ := List.mem_map.mp hc2
  exact ⟨List.mem_range.mp hph, allPermData_facts d hd⟩

theorem invNPN_testBit (f ph : Nat) (prog : List Nat) (hp : ∀ k ∈ prog, k < 3)
    (m : Nat) (hm : m < 16) :
    (invNPN f ph prog).testBit m
      = xor (ph.testBit 4)
          (f.testBit (flipsIdxL (flipList ph) (swapsIdx prog m))) := by
  rw [invNPN, applySwaps_testBit prog hp _ m hm,
    applyFlipList_testBit _ (flipList_lt ph) _ _ (swapsIdx_lt prog hp m hm),
    outFlip_mod_testBit _ _ _
      (flipsIdxL_lt _ (flipList_lt ph) _ (swapsIdx_lt prog hp m hm))]

/-- Row-level semantics of `invNPN`: row `m` of the candidate representative
reads row `idx4f (fun j => xor m[pinv j] ph[j])` of `f`, XORed with the
output-polarity bit. -/
theorem invNPN_row (f ph : Nat) (hph : ph < 32) (pinv prog : List Nat)
    (hp : ∀ k ∈ prog, k < 3)
    (hswap : ∀ m < 16, swapsIdx prog m = idx4f (fun j => m.testBit (pinv.getD j 0)))
    (m : Nat) (hm : m < 16) :
    (invNPN f ph prog).testBit m
      = xor (ph.testBit 4)
          (f.testBit (idx4f fun j => xor (m.testBit (pinv.getD j 0)) (ph.testBit j))) := by
  rw [invNPN_testBit f ph prog hp m hm, hswap m hm,
    flipsIdx_fact ph hph _ (idx4f_lt _)]
  have hcg :
      (idx4f fun j =>
          xor ((idx4f fun j => m.testBit (pinv.getD j 0)).testBit j) (ph.testBit j))
        = idx4f fun j => xor (m.testBit (pinv.getD j 0)) (ph.testBit j) :=
    idx4f_congr _ _ (fun j hj => by rw [idx4f_testBit _ j hj])
  rw [hcg]

theorem xor_xor_self_left : ∀ a b : Bool, xor a (xor a b) = b := by decide

theorem invNPN_roundtrip (f : TT) (hf : f < 2 ^ 16) (ph : Nat) (hph : ph < 32)
    (p pinv prog : List Nat)
    (hv : ∀ j < 4, p.getD j 0 < 4 ∧ pinv.getD j 0 < 4 ∧
      p.getD (pinv.getD j 0) 0 = j ∧ pinv.getD (p.getD j 0) 0 = j)
    (hp : ∀ k ∈ prog, k < 3)
    (hswap : ∀ m < 16, swapsIdx prog m = idx4f (fun j => m.testBit (pinv.getD j 0))) :
    applyPolarityTT (applyPermTT (invNPN f ph prog) p) ph = f := by
  apply tt_ext (ofFun_lt _) hf
  intro n hn
  simp only [applyPolarityTT, applyPermTT]
  rw [ofFun_testBit _ n hn, ofFun_testBit _ _ (idx4f_lt _),
    invNPN_row f ph hph pinv prog hp hswap _ (idx4f_lt _)]
  have hm : ∀ j < 4,
      (idx4f fun j => xor (n.testBit j) (ph.testBit j)).testBit j
        = xor (n.testBit j) (ph.testBit j) :=
    fun j hj => idx4f_testBit _ j hj
  have hm' : ∀ j < 4,
      (idx4f fun j =>
          (idx4f fun j => xor (n.testBit j) (ph.testBit j)).testBit (p.getD j 0)).testBit
        (pinv.getD j 0) = xor (n.testBit j) (ph.testBit j) := by
    intro j hj
    rw [idx4f_testBit _ _ (hv j hj).2.1, (hv j hj).2.2.1]
    exact hm j hj
  have hfin :
      idx4f (fun j => xor
          ((idx4f fun j =>
            (idx4f fun j => xor (n.testBit j) (ph.testBit j)).testBit (p.getD j 0)).testBit
            (pinv.getD j 0))
          (ph.testBit j)) = n := by
    rw [idx4f_congr _ (fun j => Nat.testBit n j) ?_]
    · exact idx4f_testBit_self n hn
    · intro j hj
      rw [hm' j hj, Bool.xor_assoc, Bool.xor_self, Bool.xor_false]
  rw [hfin, xor_xor_self_left]

theorem pickMin_spec (f : TT) :
    ∀ (l : List Config) (best : TT × Config),
      pickMin f l best = best ∨
        ∃ c ∈ l, pickMin f l best = (invNPN f c.1 c.2.2.2, c) := by
  intro l
  induction l with
  | nil => intro best; left; rfl
  | cons c rest ih =>
    intro best
    cases hblt : Nat.blt (invNPN f c.1 c.2.2.2) best.1 with
    | true =>
      rcases ih (invNPN f c.1 c.2.2.2, c) with h | ⟨c', hc', h⟩
      · right
        refine ⟨c, List.mem_cons_self _ _, ?_⟩
        rw [pickMin, hblt, h]
      · right
        refine ⟨c', List.mem_cons_of_mem _ hc', ?_⟩
        rw [pickMin, hblt, h]
    | false =>
      rcases ih best with h | ⟨c', hc', h⟩
      · left
        rw [pickMin, hblt, h]
      · right
        refine ⟨c', List.mem_cons_of_mem _ hc', ?_⟩
        rw [pickMin, hblt, h]

theorem idConfig_mem : idConfig ∈ allConfigs := by decide

theorem exact_npn_canonization_eq (f r : TT) (ph : Nat) (p : List Nat)
    (rest : List Nat × List Nat)
    (h : pickMin f allConfigs (invNPN f idConfig.1 idConfig.2.2.2, idConfig)
      = (r, ph, p, rest)) :
    exact_npn_canonization f = (r, ph, p) := by
  unfold exact_npn_canonization
  rw [h]

theorem canonization_spec (f : TT) :
    ∃ c ∈ allConfigs,
      exact_npn_canonization f = (invNPN f c.1 c.2.2.2, c.1, c.2.1) := by
  rcases pickMin_spec f allConfigs (invNPN f idConfig.1 idConfig.2.2.2, idConfig)
    with h | ⟨c, hc, h⟩
  · exact ⟨idConfig, idConfig_mem, exact_npn_canonization_eq f _ _ _ _ h⟩
  · obtain ⟨ph, p, pinv, prog⟩ := c
    exact ⟨(ph, p, pinv, prog), hc, exact_npn_canonization_eq f _ _ _ _ h⟩

theorem canonization_roundtrip (f : TT) (hf : f < 2 ^ 16) :
    applyPolarityTT
      (applyPermTT (exact_npn_canonization f).1 (exact_npn_canonization f).2.2)
      (exact_npn_canonization f).2.1 = f := by
  obtain ⟨c, hc, heq⟩ := canonization_spec f
  rw [heq]
  obtain ⟨hph, hv, hp, hswap⟩ := allConfigs_valid c hc
  exact invNPN_roundtrip f hf c.1 hph c.2.1 c.2.2.1 c.2.2.2 hv hp hswap

theorem canonization_repr_lt (f : TT) : (exact_npn_canonization f).1 < 2 ^ 16 := by
  obtain ⟨c, _, heq⟩ := canonization_spec f
  rw [heq]
  show invNPN f c.1 c.2.2.2 < 2 ^ 16
  exact invNPN_lt f c.1 c.2.2.2

theorem canonization_perm_lt (f : TT) :
    ∀ j < 4, (exact_npn_canonization f).2.2.getD j 0 < 4 := by
  obtain ⟨c, hc, heq⟩ := canonization_spec f
  rw [heq]
  intro j hj
  exact ((allConfigs_valid c hc).2.1 j hj).1

/-! ### Query functions

kitty's `dynamic_truth_table` and `extend_to<4u>` are external collaborators;
they are modelled from the spec. -/

theorem decodeGates_topo :
    ∀ (m : Nat) (l : List Nat) (next : Nat) (gs : List LibGate), l.length ≤ m →
      decodeGates next l = some gs →
      ∀ k g, gs[k]? = some g → g.l0 >>> 1 < next + k ∧ g.l1 >>> 1 < next + k := by
  intro m
  induction m with
  | zero =>
    intro l next gs hl h k g hk
    match l, hl with
    | [], _ =>
      simp only [decodeGates, Option.some.injEq] at h
      subst h
      simp at hk
  | succ m ih =>
    intro l next gs hl h k g hk
    match l with
    | [] =>
      simp only [decodeGates, Option.some.injEq] at h
      subst h
      simp at hk
    | [a] => simp [decodeGates] at h
    | a :: b :: rest =>
      rw [decodeGates] at h
      split at h
      · rename_i hab
        cases hrec : decodeGates (next + 1) rest with
        | none => rw [hrec] at h; simp at h
        | some gs' =>
          rw [hrec] at h
          simp only [Option.some.injEq] at h
          subst h
          cases k with
          | zero =>
            simp only [List.getElem?_cons_zero, Option.some.injEq] at hk
            subst hk
            simpa using hab
          | succ k =>
            simp only [List.getElem?_cons_succ] at hk
            have := ih rest (next + 1) gs' (by simp at hl; omega) hrec k g hk
            omega
      · simp at h

theorem decode_topological (data : List Nat) (lib : LibGraph)
    (h : decode data = some lib) : topological lib := by
  match data with
  | [] => simp [decode] at h
  | hdr :: rest =>
    rw [decode] at h
    split at h
    · cases hrec : decodeGates 5 rest with
      | none => rw [hrec] at h; simp at h
      | some gs =>
        rw [hrec] at h
        simp only [Option.some.injEq] at h
        subst h
        intro k g hk
        exact decodeGates_topo rest.length rest 5 gs (le_refl _) hrec k g hk
    · simp at h

theorem scanGates_length {α β : Type} (step : List α → β → α) :
    ∀ (gs : List β) (acc : List α),
      (scanGates step acc gs).length = acc.length + gs.length := by
  intro gs
  induction gs with
  | nil => intro acc; rfl
  | cons g gs ih =>
    intro acc
    rw [scanGates, ih]
    simp
    omega

theorem scanGates_append {α β : Type} (step : List α → β → α) :
    ∀ (gs gs' : List β) (acc : List α),
      scanGates step acc (gs ++ gs') = scanGates step (scanGates step acc gs) gs' := by
  intro gs
  induction gs with
  | nil => intro gs' acc; rfl
  | cons g gs ih => intro gs' acc; rw [List.cons_append, scanGates, ih, scanGates]

theorem getD_append_left {α : Type} {l l' : List α} {n : Nat} (d : α)
    (h : n < l.length) : (l ++ l').getD n d = l.getD n d := by
  simp [List.getD_eq_getElem?_getD, List.getElem?_append_left h]

theorem getD_concat_length {α : Type} (l : List α) (a d : α) :
    (l ++ [a]).getD l.length d = a := by
  simp [List.getD_eq_getElem?_getD, List.getElem?_concat_length]

theorem getD_of_length_le {α : Type} {l : List α} {n : Nat} (d : α)
    (h : l.length ≤ n) : l.getD n d = d := by
  simp [List.getD_eq_getElem?_getD, List.getElem?_eq_none h]

theorem scanGates_getD_acc {α β : Type} (step : List α → β → α) (d : α) :
    ∀ (gs : List β) (acc : List α) (n : Nat), n < acc.length →
      (scanGates step acc gs).getD n d = acc.getD n d := by
  intro gs
  induction gs with
  | nil => intro acc n _; rfl
  | cons g gs ih =>
    intro acc n hn
    rw [scanGates, ih _ _ (by simp; omega), getD_append_left d hn]

theorem scanGates_take_eq {α β : Type} (step : List α → β → α) (d : α)
    (gs : List β) (k : Nat) (_hk : k ≤ gs.length) (acc : List α) (n : Nat)
    (hn : n < (scanGates step acc (gs.take k)).length) :
    (scanGates step acc gs).getD n d = (scanGates step acc (gs.take k)).getD n d := by
  conv =>
    lhs
    rw [show gs = gs.take k ++ gs.drop k by simp]
  rw [scanGates_append]
  exact scanGates_getD_acc step d _ _ n hn

theorem scanGates_getD_gate {α β : Type} (step : List α → β → α) (d : α)
    (gs : List β) (acc : List α) (k : Nat) (g : β) (hk : gs[k]? = some g) :
    (scanGates step acc gs).getD (acc.length + k) d
      = step (scanGates step acc (gs.take k)) g := by
  have hklen : k < gs.length := by
    by_contra hge
    rw [List.getElem?_eq_none (by omega)] at hk
    exact Option.noConfusion hk
  have hlen : (scanGates step acc (gs.take k)).length = acc.length + k := by
    rw [scanGates_length]
    simp
    omega
  have htake : gs.take (k + 1) = gs.take k ++ [g] := by
    rw [List.take_succ, hk]
    rfl
  rw [scanGates_take_eq step d gs (k + 1) (by omega) acc (acc.length + k)
    (by rw [scanGates_length]; simp; omega)]
  rw [htake, scanGates_append, scanGates, scanGates]
  rw [← hlen, getD_concat_length]

theorem scanGates_all {α β : Type} (step : List α → β → α) (P : α → Prop)
    (hstep : ∀ vals g, P (step vals g)) :
    ∀ (gs : List β) (acc : List α), (∀ x ∈ acc, P x) →
      ∀ x ∈ scanGates step acc gs, P x := by
  intro gs
  induction gs with
  | nil => intro acc hacc; exact hacc
  | cons g gs ih =>
    intro acc hacc
    refine ih _ (fun x hx => ?_)
    rcases List.mem_append.mp hx with hx | hx
    · exact hacc x hx
    · rcases List.mem_singleton.mp hx with rfl
      exact hstep acc g

theorem simulate_nodes_length (lib : LibGraph) :
    (simulate_nodes lib).length = numLibNodes lib :=
  scanGates_length gateTT lib.gates libBase

theorem libTT_base (lib : LibGraph) (n : Nat) (hn : n < 5) :
    libTT lib n = libBase.getD n 0 :=
  scanGates_getD_acc gateTT 0 lib.gates libBase n (by simpa [libBase] using hn)

theorem libTT_lt (lib : LibGraph) (n : Nat) : libTT lib n < 2 ^ 16 := by
  rw [libTT, List.getD_eq_getElem?_getD]
  cases hmem : (simulate_nodes lib)[n]? with
  | none => simp
  | some t =>
    have ht : t ∈ simulate_nodes lib := List.getElem?_mem hmem
    simp only [Option.getD_some]
    refine scanGates_all gateTT (fun x => x < 2 ^ 16) ?_ lib.gates libBase ?_ t ht
    · intro vals g
      rw [gateTT]
      split
      · exact xorTT_lt _ _
      · exact andTT_lt _ _
    · intro x hx
      fin_cases hx <;> norm_num

theorem libTT_gate (lib : LibGraph) (k : Nat) (g : LibGate)
    (hk : lib.gates[k]? = some g)
    (h0 : g.l0 >>> 1 < 5 + k) (h1 : g.l1 >>> 1 < 5 + k) :
    libTT lib (5 + k)
      = if g.is_xor then xorTT (libSigTT lib g.l0) (libSigTT lib g.l1)
        else andTT (libSigTT lib g.l0) (libSigTT lib g.l1) := by
  have hbase : (libBase : List TT).length = 5 := rfl
  have hklen : k < lib.gates.length := by
    by_contra hge
    rw [List.getElem?_eq_none (by omega)] at hk
    exact Option.noConfusion hk
  have hplen : (scanGates gateTT libBase (lib.gates.take k)).length = 5 + k := by
    rw [scanGates_length, hbase]
    simp
    omega
  have hmain := scanGates_getD_gate gateTT 0 lib.gates libBase k g hk
  rw [hbase] at hmain
  have hread : ∀ lit, lit >>> 1 < 5 + k →
      sigValTT (scanGates gateTT libBase (lib.gates.take k)) lit = libSigTT lib lit := by
    intro lit hlit
    have hpref := scanGates_take_eq gateTT 0 lib.gates k (by omega) libBase (lit >>> 1)
      (by rw [hplen]; omega)
    rw [sigValTT, libSigTT, libTT, simulate_nodes, hpref]
  rw [libTT, simulate_nodes, hmain, gateTT, hread g.l0 h0, hread g.l1 h1]

/-! ### The classifier (`build_db`) -/

theorem foldl_regStep_filterMap {β : Type} (f : Nat → Option β) :
    ∀ (l : List Nat) (acc : List β),
      l.foldl (regStep f) acc = acc ++ l.filterMap f := by
  intro l
  induction l with
  | nil => intro acc; simp
  | cons x xs ih =>
    intro acc
    rw [List.foldl_cons, List.filterMap_cons]
    cases hfx : f x <;>
      simp only [regStep, hfx, ih, List.append_assoc, List.singleton_append]

theorem build_db_eq (lib : LibGraph) :
    build_db lib = (List.range (numLibNodes lib)).filterMap (regEntry lib) := by
  rw [build_db, foldl_regStep_filterMap, List.nil_append]

theorem mem_build_db {lib : LibGraph} {e : TT × Sig} (he : e ∈ build_db lib) :
    ∃ n < numLibNodes lib, regEntry lib n = some e := by
  rw [build_db_eq] at he
  obtain ⟨n, hn, hne⟩ := List.mem_filterMap.mp he
  exact ⟨n, List.mem_range.mp hn, hne⟩

theorem regEntry_sound (lib : LibGraph) (n : Nat) (e : TT × Sig)
    (h : regEntry lib n = some e) :
    e.2.1 = n ∧ uncomplTT (libTT lib e.2.1) e.2.2 = e.1 := by
  rw [regEntry] at h
  split at h
  · cases h
    exact ⟨rfl, rfl⟩
  · split at h
    · cases h
      exact ⟨rfl, rfl⟩
    · exact Option.noConfusion h

theorem classLookup_mem {idx : List (TT × Sig)} {k : TT} {cd : Sig}
    (h : cd ∈ classLookup idx k) : (k, cd) ∈ idx := by
  rw [classLookup] at h
  obtain ⟨e, he, hecd⟩ := List.mem_map.mp h
  obtain ⟨hmem, hkey⟩ := List.mem_filter.mp he
  have hk : e.1 = k := by simpa using hkey
  have : e = (k, cd) := by
    obtain ⟨e1, e2⟩ := e
    simp only at hk hecd
    rw [hk, hecd]
  rw [← this]
  exact hmem

theorem classLookup_sound (lib : LibGraph) (k : TT) (cd : Sig)
    (h : cd ∈ classLookup (build_db lib) k) :
    cd.1 < numLibNodes lib ∧ uncomplTT (libTT lib cd.1) cd.2 = k := by
  obtain ⟨n, hn, hreg⟩ := mem_build_db (classLookup_mem h)
  obtain ⟨hnode, hval⟩ := regEntry_sound lib n (k, cd) hreg
  simp only at hnode hval
  subst hnode
  exact ⟨hn, hval⟩

theorem classLookup_unique (lib : LibGraph) (n : Nat) (c1 c2 : Bool) (k1 k2 : TT)
    (h1 : (n, c1) ∈ classLookup (build_db lib) k1)
    (h2 : (n, c2) ∈ classLookup (build_db lib) k2) : k1 = k2 ∧ c1 = c2 := by
  obtain ⟨m1, _, hr1⟩ := mem_build_db (classLookup_mem h1)
  obtain ⟨m2, _, hr2⟩ := mem_build_db (classLookup_mem h2)
  have he1 := (regEntry_sound lib m1 _ hr1).1
  have he2 := (regEntry_sound lib m2 _ hr2).1
  simp only at he1 he2
  subst he1
  subst he2
  rw [hr1] at hr2
  cases hr2
  exact ⟨rfl, rfl⟩

/-! ### The target network

The target `Ntk` is consumed only through its capability contract
(section 6): constant-false signal, `create_and`, `create_xor`,
`create_not`, structural signals.  It is embedded as a gate list over
`pis` primary inputs: node `0` is constant false, nodes `1..pis` the
primary inputs, node `1 + pis + i` the `i`-th created gate.  Evaluation is
relative to an environment assigning booleans to the primary inputs. -/

theorem TExt_refl (st : TNet) : TExt st st := ⟨rfl, [], by simp⟩

theorem TExt_trans {s1 s2 s3 : TNet} (h12 : TExt s1 s2) (h23 : TExt s2 s3) :
    TExt s1 s3 := by
  obtain ⟨hp12, t12, hg12⟩ := h12
  obtain ⟨hp23, t23, hg23⟩ := h23
  exact ⟨hp23.trans hp12, t12 ++ t23, by rw [hg23, hg12, List.append_assoc]⟩

theorem TExt_addGate (st : TNet) (x : Bool) (a b : Sig) :
    TExt st (addGate st x a b) := ⟨rfl, [⟨x, a, b⟩], rfl⟩

theorem numN_mono {st st' : TNet} (h : TExt st st') : numN st ≤ numN st' := by
  obtain ⟨hp, tl, hg⟩ := h
  simp [numN, hp, hg]

theorem numN_addGate (st : TNet) (x : Bool) (a b : Sig) :
    numN (addGate st x a b) = numN st + 1 := by
  simp [numN, addGate]
  omega

theorem tvals_length (st : TNet) (env : Nat → Bool) :
    (tvals st env).length = numN st := by
  rw [tvals, scanGates_length]
  simp [numN]
  omega

theorem tEval_stable {st st' : TNet} (env : Nat → Bool) {s : Sig}
    (h : TExt st st') (hs : s.1 < numN st) : tEval st' env s = tEval st env s := by
  obtain ⟨hp, tl, hg⟩ := h
  rw [tEval, tEval, sigVal, sigVal, tvals, tvals, hp, hg, scanGates_append]
  rw [scanGates_getD_acc gateVal false tl _ s.1 (by rw [← tvals, tvals_length]; exact hs)]

theorem xor_not_left : ∀ a b : Bool, xor (!a) b = !(xor a b) := by decide

theorem tEval_notSig (st : TNet) (env : Nat → Bool) (s : Sig) :
    tEval st env (notSig s) = !(tEval st env s) := by
  rw [tEval, tEval, notSig, sigVal, sigVal]
  exact xor_not_left s.2 _

theorem tEval_constFalse (st : TNet) (env : Nat → Bool) :
    tEval st env (0, false) = false := by
  rw [tEval, sigVal, tvals]
  rw [scanGates_getD_acc gateVal false st.gates _ 0 (by simp)]
  simp

theorem addGate_eval_new (st : TNet) (env : Nat → Bool) (x : Bool) (a b : Sig) :
    tEval (addGate st x a b) env (newSig st)
      = if x then xor (tEval st env a) (tEval st env b)
        else (tEval st env a && tEval st env b) := by
  rw [tEval, newSig, sigVal]
  have hv : tvals (addGate st x a b) env
      = tvals st env ++ [gateVal (tvals st env) ⟨x, a, b⟩] := by
    rw [tvals, tvals, addGate, scanGates_append, scanGates, scanGates]
  rw [hv]
  have hlen : numN st = (tvals st env).length := (tvals_length st env).symm
  rw [show ((numN st, false) : Sig).1 = numN st from rfl, hlen, getD_concat_length]
  simp only [gateVal, tEval, Bool.false_xor]

/-! ### The reconstructor (`copy_db_entry`) -/

theorem lookupM_mem : ∀ (memo : List (Nat × Sig)) (n : Nat) (s : Sig),
    lookupM memo n = some s → (n, s) ∈ memo := by
  intro memo
  induction memo with
  | nil => intro n s h; exact Option.noConfusion h
  | cons p rest ih =>
    intro n s h
    rw [lookupM] at h
    split at h
    · rename_i hpn
      cases h
      rw [← hpn, Prod.mk.eta]
      exact List.mem_cons_self _ _
    · exact List.mem_cons_of_mem _ (ih n s h)

theorem lookupM_cons_isSome (memo : List (Nat × Sig)) (q : Nat × Sig) (i : Nat)
    (h : (lookupM memo i).isSome) : (lookupM (q :: memo) i).isSome := by
  rw [lookupM]
  split <;> simp [h]

theorem memoInv_ext {lib : LibGraph} {env : Nat → Bool} {W : Nat}
    {st st' : TNet} {memo : List (Nat × Sig)}
    (h : memoInv lib env W st memo) (hext : TExt st st') :
    memoInv lib env W st' memo := by
  intro p hp
  obtain ⟨hv, he⟩ := h p hp
  exact ⟨lt_of_lt_of_le hv (numN_mono hext), by rw [tEval_stable env hext hv]; exact he⟩

theorem seeded_cons (memo : List (Nat × Sig)) (q : Nat × Sig)
    (h : seeded memo) : seeded (q :: memo) :=
  fun i hi => lookupM_cons_isSome memo q i (h i hi)

theorem libSigTT_testBit (lib : LibGraph) (lit : Nat) (W : Nat) (hW : W < 16) :
    (libSigTT lib lit).testBit W
      = if lit &&& 1 = 1 then !((libTT lib (lit >>> 1)).testBit W)
        else (libTT lib (lit >>> 1)).testBit W := by
  rw [libSigTT]
  split
  · exact complTT_testBit _ W hW
  · rfl

theorem copy_db_entry_correct (lib : LibGraph) (htopo : topological lib)
    (env : Nat → Bool) (W : Nat) (hW : W < 16) :
    ∀ (fuel : Nat) (memo : List (Nat × Sig)) (st : TNet) (n : Nat),
      n < fuel → n < numLibNodes lib → memoInv lib env W st memo → seeded memo →
      TExt st (copy_db_entry lib fuel memo st n).2.2 ∧
      memoInv lib env W (copy_db_entry lib fuel memo st n).2.2
        (copy_db_entry lib fuel memo st n).2.1 ∧
      seeded (copy_db_entry lib fuel memo st n).2.1 ∧
      (copy_db_entry lib fuel memo st n).1.1
        < numN (copy_db_entry lib fuel memo st n).2.2 ∧
      tEval (copy_db_entry lib fuel memo st n).2.2 env
          (copy_db_entry lib fuel memo st n).1
        = (libTT lib n).testBit W := by
  intro fuel
  induction fuel with
  | zero => intro memo st n hf; omega
  | succ fuel ih =>
    intro memo st n hf hn hinv hsd
    cases hm : lookupM memo n with
    | some s =>
      have hentry := hinv (n, s) (lookupM_mem memo n s hm)
      simp only [copy_db_entry, hm]
      exact ⟨TExt_refl st, hinv, hsd, hentry.1, hentry.2⟩
    | none =>
      by_cases h5 : n < 5
      · have hsome := hsd n h5
        rw [hm] at hsome
        exact absurd hsome (by simp)
      · cases hg : lib.gates[n - 5]? with
        | none =>
          exfalso
          have hlen := List.getElem?_eq_none_iff.mp hg
          rw [numLibNodes] at hn
          omega
        | some g =>
          have hb := htopo (n - 5) g hg
          have hb0 : g.l0 >>> 1 < n := by omega
          have hb1 : g.l1 >>> 1 < n := by omega
          simp only [copy_db_entry, hm, h5, if_false, hg]
          obtain ⟨e0, i0, sd0, v0, ev0⟩ :=
            ih memo st (g.l0 >>> 1) (by omega) (by omega) hinv hsd
          obtain ⟨e1, i1, sd1, v1, ev1⟩ :=
            ih (copy_db_entry lib fuel memo st (g.l0 >>> 1)).2.1
              (copy_db_entry lib fuel memo st (g.l0 >>> 1)).2.2 (g.l1 >>> 1)
              (by omega) (by omega) i0 sd0
          set r0 := copy_db_entry lib fuel memo st (g.l0 >>> 1) with hr0
          set r1 := copy_db_entry lib fuel r0.2.1 r0.2.2 (g.l1 >>> 1) with hr1
          set s0 : Sig := if g.l0 &&& 1 = 1 then notSig r0.1 else r0.1 with hs0
          set s1 : Sig := if g.l1 &&& 1 = 1 then notSig r1.1 else r1.1 with hs1
          have hext : TExt st (addGate r1.2.2 g.is_xor s0 s1) :=
            TExt_trans (TExt_trans e0 e1) (TExt_addGate _ _ _ _)
          have hvalid : (newSig r1.2.2).1 < numN (addGate r1.2.2 g.is_xor s0 s1) := by
            rw [numN_addGate]
            exact Nat.lt_succ_self _
          have hes0 : tEval r1.2.2 env s0 = (libSigTT lib g.l0).testBit W := by
            rw [libSigTT_testBit lib g.l0 W hW, hs0]
            split
            · rw [tEval_notSig, tEval_stable env e1 v0, ev0]
            · rw [tEval_stable env e1 v0, ev0]
          have hes1 : tEval r1.2.2 env s1 = (libSigTT lib g.l1).testBit W := by
            rw [libSigTT_testBit lib g.l1 W hW, hs1]
            split
            · rw [tEval_notSig, ev1]
            · exact ev1
          have heval : tEval (addGate r1.2.2 g.is_xor s0 s1) env (newSig r1.2.2)
              = (libTT lib n).testBit W := by
            rw [addGate_eval_new, hes0, hes1]
            have hgate := libTT_gate lib (n - 5) g hg (by omega) (by omega)
            rw [show 5 + (n - 5) = n by omega] at hgate
            rw [hgate]
            cases hx : g.is_xor <;>
              simp [xorTT_testBit _ _ W hW, andTT_testBit _ _ W hW]
          refine ⟨hext, ?_, seeded_cons _ _ sd1, hvalid, heval⟩
          intro p hp
          rcases List.mem_cons.mp hp with rfl | hp
          · exact ⟨hvalid, heval⟩
          · exact memoInv_ext i1 (TExt_addGate _ _ _ _) p hp

theorem copy_db_entry_fuel (lib : LibGraph) (htopo : topological lib) :
    ∀ (f1 f2 : Nat) (memo : List (Nat × Sig)) (st : TNet) (n : Nat),
      n < numLibNodes lib → n < f1 → n < f2 →
      copy_db_entry lib f1 memo st n = copy_db_entry lib f2 memo st n := by
  intro f1
  induction f1 with
  | zero => intro f2 memo st n _ h1 _; omega
  | succ f1 ih =>
    intro f2 memo st n hn h1 h2
    cases f2 with
    | zero => omega
    | succ f2 =>
      cases hm : lookupM memo n with
      | some s => simp only [copy_db_entry, hm]
      | none =>
        by_cases h5 : n < 5
        · simp only [copy_db_entry, hm, h5, if_true]
        · cases hg : lib.gates[n - 5]? with
          | none => simp only [copy_db_entry, hm, h5, if_false, hg]
          | some g =>
            have hb := htopo (n - 5) g hg
            have e0 : copy_db_entry lib f1 memo st (g.l0 >>> 1)
                = copy_db_entry lib f2 memo st (g.l0 >>> 1) :=
              ih f2 memo st _ (by omega) (by omega) (by omega)
            simp only [copy_db_entry, hm, h5, if_false, hg]
            rw [e0]
            rw [ih f2 (copy_db_entry lib f2 memo st (g.l0 >>> 1)).2.1
              (copy_db_entry lib f2 memo st (g.l0 >>> 1)).2.2 (g.l1 >>> 1)
              (by omega) (by omega) (by omega)]

/-! ### The query engine (`xag_npn_resynthesis::operator()`) -/

theorem tEval_condNot (st : TNet) (env : Nat → Bool) (b : Bool) (s : Sig) :
    tEval st env (if b then notSig s else s) = xor b (tEval st env s) := by
  cases b
  · simp
  · simp [tEval_notSig]

theorem condNot_fst (b : Bool) (s : Sig) : (if b then notSig s else s).1 = s.1 := by
  cases b <;> rfl

theorem xor_true_not : ∀ a b : Bool, xor (xor true a) (!b) = xor a b := by decide

theorem emitLoop_sound (lib : LibGraph) (htopo : topological lib)
    (env : Nat → Bool) (W : Nat) (hW : W < 16) (phase : Nat) (reprT : TT)
    (fn : Sig → Bool) :
    ∀ (cands : List Sig) (memo : List (Nat × Sig)) (st : TNet),
      (∀ cd ∈ cands, cd ∈ classLookup (build_db lib) reprT) →
      memoInv lib env W st memo → seeded memo →
      TExt st (emitLoop lib phase fn cands memo st).2 ∧
      ∀ o ∈ (emitLoop lib phase fn cands memo st).1,
        tEval (emitLoop lib phase fn cands memo st).2 env o
          = xor (phase.testBit 4) (reprT.testBit W) := by
  intro cands
  induction cands with
  | nil =>
    intro memo st _ _ _
    exact ⟨TExt_refl st, by simp [emitLoop]⟩
  | cons c rest ih =>
    intro memo st hcl hinv hsd
    obtain ⟨hcn, hcs⟩ := classLookup_sound lib reprT c (hcl c (List.mem_cons_self _ _))
    obtain ⟨e, i, sd, v, ev⟩ := copy_db_entry_correct lib htopo env W hW
      (c.1 + 1) memo st c.1 (Nat.lt_succ_self _) hcn hinv hsd
    set r := copy_db_entry lib (c.1 + 1) memo st c.1 with hr
    set out : Sig := if xor c.2 (phase.testBit 4) then notSig r.1 else r.1 with hout
    have hcs_eq : cand_step lib phase memo st c = (out, r.2.1, r.2.2) := rfl
    have hov : out.1 < numN r.2.2 := by
      rw [hout, condNot_fst]
      exact v
    have hout_val : tEval r.2.2 env out = xor (phase.testBit 4) (reprT.testBit W) := by
      rw [hout, tEval_condNot, ev]
      cases hc2 : c.2
      · have hrepr : libTT lib c.1 = reprT := by
          rw [hc2] at hcs
          exact hcs
        rw [hrepr, Bool.false_xor]
      · have hrepr : libTT lib c.1 = complTT reprT := by
          rw [hc2] at hcs
          rw [uncomplTT] at hcs
          simp only [if_true] at hcs
          rw [← hcs, complTT_involutive (libTT_lt lib c.1)]
        have hrlt : reprT < 2 ^ 16 := by
          rw [hc2, uncomplTT] at hcs
          simp only [if_true] at hcs
          rw [← hcs]
          exact complTT_lt _
        rw [hrepr, complTT_testBit _ _ hW, xor_true_not]
    have hloop : emitLoop lib phase fn (c :: rest) memo st
        = if fn out then
            ((emitLoop lib phase fn rest r.2.1 r.2.2).1.cons out,
             (emitLoop lib phase fn rest r.2.1 r.2.2).2)
          else ([out], r.2.2) := by
      rw [emitLoop, hcs_eq]
    by_cases hfn : fn out
    · obtain ⟨e', hall⟩ := ih r.2.1 r.2.2
        (fun cd hcd => hcl cd (List.mem_cons_of_mem _ hcd)) i sd
      rw [hloop, if_pos hfn]
      refine ⟨TExt_trans e e', ?_⟩
      intro o ho
      rcases List.mem_cons.mp ho with rfl | ho
      · rw [tEval_stable env e' hov]
        exact hout_val
      · exact hall o ho
    · rw [hloop, if_neg hfn]
      exact ⟨e, fun o ho => by rcases List.mem_singleton.mp ho with rfl; exact hout_val⟩

theorem libBase_pi_testBit :
    ∀ i < 4, ∀ m < 16, ((libBase.getD (i + 1) 0).testBit m) = m.testBit i := by
  decide

theorem pisOf_valid (leaves : List Sig) (st : TNet)
    (hlv : ∀ l ∈ leaves, l.1 < numN st) (j : Nat) : (pisOf leaves j).1 < numN st := by
  rw [pisOf]
  by_cases hj : j < leaves.length
  · rw [List.getD_eq_getElem?_getD, List.getElem?_eq_getElem hj]
    exact hlv _ (List.getElem_mem hj)
  · rw [getD_of_length_le _ (by omega)]
    simp [numN]

theorem numN_pos (st : TNet) : 0 < numN st := by
  simp [numN]

theorem seedMemo_inv (lib : LibGraph) (env : Nat → Bool) (st : TNet)
    (phase : Nat) (perm : List Nat) (leaves : List Sig)
    (hlv : ∀ l ∈ leaves, l.1 < numN st) :
    memoInv lib env
      (idx4f (fun i => tEval st env (seedSigOf phase perm (pisOf leaves) i))) st
      (seedMemo phase perm (pisOf leaves)) := by
  set W := idx4f (fun i => tEval st env (seedSigOf phase perm (pisOf leaves) i))
    with hW
  have hWlt : W < 16 := idx4f_lt _
  have hpi : ∀ i < 4, tEval st env (seedSigOf phase perm (pisOf leaves) i)
      = (libTT lib (i + 1)).testBit W := by
    intro i hi
    rw [libTT_base lib (i + 1) (by omega), libBase_pi_testBit i hi W hWlt, hW,
      idx4f_testBit _ i hi]
  have hvalid : ∀ i, (seedSigOf phase perm (pisOf leaves) i).1 < numN st := by
    intro i
    rw [seedSigOf, condNot_fst]
    exact pisOf_valid leaves st hlv _
  intro p hp
  simp only [seedMemo, List.mem_cons, List.not_mem_nil, or_false] at hp
  rcases hp with rfl | rfl | rfl | rfl | rfl
  · refine ⟨numN_pos st, ?_⟩
    rw [tEval_constFalse, libTT_base lib 0 (by omega)]
    simp [libBase]
  · exact ⟨hvalid 0, hpi 0 (by omega)⟩
  · exact ⟨hvalid 1, hpi 1 (by omega)⟩
  · exact ⟨hvalid 2, hpi 2 (by omega)⟩
  · exact ⟨hvalid 3, hpi 3 (by omega)⟩

theorem seedMemo_seeded (phase : Nat) (perm : List Nat) (pis : Nat → Sig) :
    seeded (seedMemo phase perm pis) := by
  intro i hi
  interval_cases i <;> simp [seedMemo, lookupM]

theorem query_index_eq (st : TNet) (env : Nat → Bool) (qtt : TT)
    (_hqlt : qtt < 2 ^ 16) (reprT : TT) (phase : Nat) (perm : List Nat)
    (hround : applyPolarityTT (applyPermTT reprT perm) phase = qtt)
    (hperm : ∀ j < 4, perm.getD j 0 < 4) (leaves : List Sig) :
    qtt.testBit (idx4f (fun j => tEval st env (pisOf leaves j)))
      = xor (phase.testBit 4)
          (reprT.testBit
            (idx4f (fun i => tEval st env (seedSigOf phase perm (pisOf leaves) i)))) := by
  set X := idx4f (fun j => tEval st env (pisOf leaves j)) with hX
  have hXlt : X < 16 := idx4f_lt _
  rw [← hround]
  simp only [applyPolarityTT, applyPermTT]
  rw [ofFun_testBit _ X hXlt, ofFun_testBit _ _ (idx4f_lt _)]
  congr 1
  apply congrArg
  apply idx4f_congr
  intro j hj
  rw [idx4f_testBit _ _ (hperm j hj), idx4f_testBit _ _ (hperm j hj), seedSigOf,
    tEval_condNot]
  exact Bool.xor_comm _ _

/-- Claim C1: query soundness.  For every query function of width at most 4
and every candidate signal emitted to the accept callback, simulating that
candidate in the final target network — with the supplied leaves substituted
for the cut inputs — yields exactly the (width-4 extension of the) query
function: the candidate's value under any environment equals the query
function evaluated at the leaves' values. -/
theorem C1_query_soundness (data : List Nat) (lib : LibGraph) (st : TNet)
    (d : DynTT) (leaves : List Sig) (fn : Sig → Bool) (qtt : TT)
    (emitted : List Sig) (stF : TNet) (c : Sig) (env : Nat → Bool)
    (hdec : decode data = some lib)
    (hlv : ∀ l ∈ leaves, l.1 < numN st)
    (hext : extend_to4 d = some qtt)
    (hop : xag_npn_op lib st d leaves fn = some (emitted, stF))
    (hc : c ∈ emitted) :
    tEval stF env c = qtt.testBit (idx4f (fun j => tEval st env (pisOf leaves j))) := by
  have htopo := decode_topological data lib hdec
  have hqlt : qtt < 2 ^ 16 := by
    rw [extend_to4] at hext
    split at hext
    · cases hext
      exact ofFun_lt _
    · exact Option.noConfusion hext
  rcases hrt : repr_table qtt with ⟨reprT, phase, perm⟩
  simp only [xag_npn_op, hext, hrt] at hop
  by_cases hcls : classLookup (build_db lib) reprT = []
  · rw [if_pos hcls] at hop
    cases hop
    exact absurd hc (List.not_mem_nil c)
  · rw [if_neg hcls] at hop
    cases hsp : seedPis leaves with
    | none => rw [hsp] at hop; exact Option.noConfusion hop
    | some pis =>
      rw [hsp] at hop
      rw [seedPis] at hsp
      rcases le_or_lt leaves.length 4 with h4 | h4
      · rw [if_pos h4] at hsp
        cases hsp
        have hpair := Option.some.inj hop
        have hemit : emitted = (emitLoop lib phase fn
            (classLookup (build_db lib) reprT) (seedMemo phase perm (pisOf leaves))
            st).1 := by rw [hpair]
        have hstF : stF = (emitLoop lib phase fn
            (classLookup (build_db lib) reprT) (seedMemo phase perm (pisOf leaves))
            st).2 := by rw [hpair]
        subst hemit
        subst hstF
        have hcanon : exact_npn_canonization qtt = (reprT, phase, perm) := hrt
        have hperm : ∀ j < 4, perm.getD j 0 < 4 := by
          intro j hj
          have := canonization_perm_lt qtt j hj
          rw [hcanon] at this
          exact this
        have hround : applyPolarityTT (applyPermTT reprT perm) phase = qtt := by
          have := canonization_roundtrip qtt hqlt
          rw [hcanon] at this
          exact this
        set W := idx4f (fun i => tEval st env (seedSigOf phase perm (pisOf leaves) i))
          with hWdef
        obtain ⟨hE, hall⟩ := emitLoop_sound lib htopo env W (idx4f_lt _) phase reprT fn
          (classLookup (build_db lib) reprT) (seedMemo phase perm (pisOf leaves)) st
          (fun cd hcd => hcd)
          (seedMemo_inv lib env st phase perm leaves hlv)
          (seedMemo_seeded phase perm (pisOf leaves))
        rw [hall c hc]
        exact (query_index_eq st env qtt hqlt reprT phase perm hround hperm leaves).symm
      · rw [if_neg (by omega)] at hsp
        exact Option.noConfusion hsp

/-! ### Concrete instances

A one-gate library (`AND(!pi2, !pi3)`, encoded as the literal pair `(7, 9)`
under the header `1 << 16 | 4`) whose gate's simulated function `15` is its
own canonical representative, a fresh 4-input target network, and the
4 target primary inputs as leaves.  The 2-input AND query has raw pattern
`34952 = 0x8888` and the 2-input XOR query `26214 = 0x6666`. -/

theorem ce_canon_q : repr_table 34952 = (15, 3, [2, 3, 0, 1]) := rfl

theorem ce_build_db :
    build_db ceLib = [(0, ((0 : Nat), false)), (255, (4, true)), (15, (5, false))] := rfl

theorem ce_canon_xor : repr_table 26214 = (4080, 0, [2, 3, 0, 1]) := rfl

theorem ce_ext_q : extend_to4 ⟨4, 34952⟩ = some 34952 := rfl

/-- Witness for C1 at the concrete AND query on the one-gate library: the
emitted candidate is the created AND gate, and its value equals the query
function at the leaves' values. -/
theorem C1_witness :
    tEval ⟨4, [⟨false, (1, false), (2, false)⟩]⟩ (fun _ => true) (5, false)
      = Nat.testBit 34952
          (idx4f (fun j => tEval st0 (fun _ => true) (pisOf ceLeaves j))) := by
  refine C1_query_soundness ceData ceLib st0 ⟨4, 34952⟩ ceLeaves (fun _ => true) 34952
    [(5, false)] ⟨4, [⟨false, (1, false), (2, false)⟩]⟩ (5, false) (fun _ => true)
    rfl (by decide) ce_ext_q ?_ (by decide)
  simp only [xag_npn_op, ce_ext_q, ce_canon_q, ce_build_db]
  decide

/-- Claim C2: round-trip law of the canonical table.  For every one of the
65536 width-4 functions, the stored entry `(representative, polarity,
permutation)` satisfies that applying the stored permutation and then the
stored polarity to the representative reproduces the function exactly. -/
theorem C2_canonical_roundtrip (t r ph : Nat) (p : List Nat) (ht : t < 65536)
    (hentry : repr_table t = (r, ph, p)) :
    applyPolarityTT (applyPermTT r p) ph = t := by
  have h2 : (65536 : Nat) = 2 ^ 16 := by norm_num
  rw [h2] at ht
  have h' : exact_npn_canonization t = (r, ph, p) := hentry
  have hrt := canonization_roundtrip t ht
  rw [h'] at hrt
  simpa using hrt

theorem ce_canon_0 : repr_table 0 = (0, 0, [0, 1, 2, 3]) := rfl

/-- Witness for C2 at the constant-false function. -/
theorem C2_witness :
    0 < 65536 ∧ applyPolarityTT (applyPermTT 0 [0, 1, 2, 3]) 0 = 0 :=
  ⟨by decide, C2_canonical_roundtrip 0 0 0 [0, 1, 2, 3] (by decide) ce_canon_0⟩

/-- Counterexample to claim C3 as stated: for the AND query `0x8888` (whose
representative `15` has a candidate in the library), the canonization is
`(15, polarity 3, perm [2,3,0,1])`; primary input `0` of the context is
bound to the *uncomplemented* leaf signal `(3, false)` because bit
`perm[0] = 2` of the polarity is clear, whereas the claim (bit `0`, which is
set) predicts the complemented signal `(3, true)`. -/
theorem C3_counterexample :
    classLookup (build_db ceLib) (repr_table 34952).1 ≠ [] ∧
    lookupM (seedMemo (repr_table 34952).2.1 (repr_table 34952).2.2
        (pisOf ceLeaves)) 1
      = some ((3, false) : Sig) ∧
    claimedSeedSigOf (repr_table 34952).2.1 (repr_table 34952).2.2
        (pisOf ceLeaves) 0
      = ((3, true) : Sig) ∧
    ((3, false) : Sig) ≠ ((3, true) : Sig) := by
  refine ⟨?_, ?_, ?_, by decide⟩
  · simp only [ce_canon_q, ce_build_db]
    decide
  · rw [ce_canon_q]
    decide
  · rw [ce_canon_q]
    decide

/-- Claim C3 (amended): query-context seeding.  For every query whose
representative has candidates, primary input `i` of the reconstruction
context is bound to the target signal `leaves[perm[i]]`, complemented if and
only if bit `perm[i]` (not bit `i`) of the polarity bitmask is set; leaf
positions beyond the supplied leaves are the constant-false signal. -/
theorem C3_seed_binding (lib : LibGraph) (qtt reprT : TT) (phase : Nat)
    (perm : List Nat) (pis : Nat → Sig) (leaves : List Sig)
    (_hcanon : repr_table qtt = (reprT, phase, perm))
    (_hne : classLookup (build_db lib) reprT ≠ [])
    (hsp : seedPis leaves = some pis) :
    (∀ i < 4, lookupM (seedMemo phase perm pis) (i + 1)
        = some (if phase.testBit (perm.getD i 0) then notSig (pis (perm.getD i 0))
                else pis (perm.getD i 0))) ∧
    ∀ j, leaves.length ≤ j → pis j = (0, false) := by
  constructor
  · intro i hi
    interval_cases i <;> simp [seedMemo, lookupM, seedSigOf]
  · intro j hj
    rw [seedPis] at hsp
    rcases le_or_lt leaves.length 4 with h4 | h4
    · rw [if_pos h4] at hsp
      cases hsp
      rw [pisOf, getD_of_length_le _ hj]
    · rw [if_neg (by omega)] at hsp
      exact Option.noConfusion hsp

/-- Witness for the amended C3 at the concrete AND query. -/
theorem C3_witness :
    (∀ i < 4, lookupM (seedMemo 3 [2, 3, 0, 1] (pisOf ceLeaves)) (i + 1)
        = some (if Nat.testBit 3 ([2, 3, 0, 1].getD i 0)
                then notSig (pisOf ceLeaves ([2, 3, 0, 1].getD i 0))
                else pisOf ceLeaves ([2, 3, 0, 1].getD i 0))) ∧
    ∀ j, ceLeaves.length ≤ j → pisOf ceLeaves j = (0, false) :=
  C3_seed_binding ceLib 34952 15 3 [2, 3, 0, 1] (pisOf ceLeaves) ceLeaves
    ce_canon_q (by simp only [ce_build_db]; decide) rfl

/-- Counterexample to claim C4 as stated: a width-5 query does not return
normally with zero candidates; the unchecked call into the width-4 extension
violates that collaborator's precondition (the embedded operator yields no
result at all, rather than `([], unchanged network)`). -/
theorem C4_counterexample :
    xag_npn_op ceLib st0 ⟨5, 0⟩ [] (fun _ => true) = none ∧
    xag_npn_op ceLib st0 ⟨5, 0⟩ [] (fun _ => true) ≠ some ([], st0) :=
  ⟨rfl, by decide⟩

/-- Claim C4 (amended): the query operator performs no width check of its
own; every query wider than 4 inputs fails at the truth-table extension step
(an unchecked external precondition), so no candidate is ever emitted and
the target network is never touched — but it is not a handled, graceful
no-match. -/
theorem C4_width_violation (d : DynTT) (hd : 4 < d.numVars) :
    ∀ (lib : LibGraph) (st : TNet) (leaves : List Sig) (fn : Sig → Bool),
      xag_npn_op lib st d leaves fn = none := by
  intro lib st leaves fn
  have hext : extend_to4 d = none := by
    rw [extend_to4, if_neg (by omega)]
  simp only [xag_npn_op, hext]

/-- Witness for the amended C4 at a width-5 query. -/
theorem C4_witness : xag_npn_op ceLib st0 ⟨5, 0⟩ [] (fun _ => false) = none :=
  C4_width_violation ⟨5, 0⟩ (by decide) ceLib st0 [] (fun _ => false)

/-- Claim C5: classifier soundness.  Every library signal registered in the
class index under key `k` simulates — after un-complementing per its stored
complement flag — to a function equal to `k`, and each library node is
registered under at most one class (with one flag). -/
theorem C5_classifier_soundness (lib : LibGraph) (k : TT) (n : Nat) (c : Bool)
    (h : (n, c) ∈ classLookup (build_db lib) k) :
    uncomplTT (libTT lib n) c = k ∧
    ∀ k' c', (n, c') ∈ classLookup (build_db lib) k' → k' = k ∧ c' = c := by
  refine ⟨(classLookup_sound lib k (n, c) h).2, ?_⟩
  intro k' c' h'
  exact classLookup_unique lib n c' c k' k h' h

/-- Witness for C5 at the library gate registered under class `15`. -/
theorem C5_witness :
    uncomplTT (libTT ceLib 5) false = 15 ∧
    ∀ k' c', ((5 : Nat), c') ∈ classLookup (build_db ceLib) k' →
      k' = 15 ∧ c' = false :=
  C5_classifier_soundness ceLib 15 5 false (by simp only [ce_build_db]; decide)

/-- Claim C6: cancellation.  Within one query, once the accept callback
returns false for a candidate, the loop returns immediately: only that
candidate was emitted, the final network is the one right after its
reconstruction, and the remaining candidates are never reconstructed (the
result does not depend on them). -/
theorem C6_cancellation (lib : LibGraph) (phase : Nat) (fn : Sig → Bool)
    (c : Sig) (rest : List Sig) (memo : List (Nat × Sig)) (st : TNet)
    (h : fn (cand_step lib phase memo st c).1 = false) :
    emitLoop lib phase fn (c :: rest) memo st
      = ([(cand_step lib phase memo st c).1],
         (cand_step lib phase memo st c).2.2) := by
  simp only [emitLoop, h, Bool.false_eq_true, if_false]

/-- Witness for C6: an always-rejecting callback stops after the first
candidate. -/
theorem C6_witness :
    emitLoop ceLib 3 (fun _ => false) [(5, false), (0, false)] ceMemo0 st0
      = ([(cand_step ceLib 3 ceMemo0 st0 (5, false)).1],
         (cand_step ceLib 3 ceMemo0 st0 (5, false)).2.2) :=
  C6_cancellation ceLib 3 (fun _ => false) (5, false) [(0, false)] ceMemo0 st0 rfl

/-- Claim C7: no-match is not an error.  When the canonical representative of
the query is absent from the class index, the operator returns normally with
zero candidates: the accept callback is never invoked and the target network
is returned unchanged. -/
theorem C7_no_match (lib : LibGraph) (st : TNet) (d : DynTT) (leaves : List Sig)
    (fn : Sig → Bool) (qtt : TT) (hext : extend_to4 d = some qtt)
    (hcls : classLookup (build_db lib) (repr_table qtt).1 = []) :
    xag_npn_op lib st d leaves fn = some ([], st) := by
  rcases hrt : repr_table qtt with ⟨reprT, phase, perm⟩
  rw [hrt] at hcls
  simp only at hcls
  simp only [xag_npn_op, hext, hrt]
  rw [if_pos hcls]

/-- Witness for C7 at the XOR query, whose class `4080` is not covered by the
one-gate library. -/
theorem C7_witness :
    xag_npn_op ceLib st0 ⟨4, 26214⟩ ceLeaves (fun _ => true) = some ([], st0) :=
  C7_no_match ceLib st0 ⟨4, 26214⟩ ceLeaves (fun _ => true) 26214 rfl
    (by simp only [ce_canon_xor, ce_build_db]; decide)

/-- Claim C8: memo correctness.  Within a single query each library node is
materialized at most once: after reconstructing node `n`, the memo maps `n`
to the returned signal, and reconstructing `n` again returns the identical
signal while leaving the memo and the target network unchanged. -/
theorem C8_memo_correctness (lib : LibGraph) (memo : List (Nat × Sig))
    (st : TNet) (n fuel fuel' : Nat) (hsd : seeded memo)
    (hn : n < numLibNodes lib) (hf : n < fuel) (hf' : 0 < fuel') :
    lookupM (copy_db_entry lib fuel memo st n).2.1 n
        = some (copy_db_entry lib fuel memo st n).1 ∧
    copy_db_entry lib fuel' (copy_db_entry lib fuel memo st n).2.1
        (copy_db_entry lib fuel memo st n).2.2 n
      = ((copy_db_entry lib fuel memo st n).1,
         (copy_db_entry lib fuel memo st n).2.1,
         (copy_db_entry lib fuel memo st n).2.2) := by
  have h1 : lookupM (copy_db_entry lib fuel memo st n).2.1 n
      = some (copy_db_entry lib fuel memo st n).1 := by
    cases fuel with
    | zero => omega
    | succ k =>
      cases hm : lookupM memo n with
      | some s =>
        simp only [copy_db_entry, hm]
      | none =>
        by_cases h5 : n < 5
        · have hsome := hsd n h5
          rw [hm] at hsome
          exact absurd hsome (by simp)
        · cases hg : lib.gates[n - 5]? with
          | none =>
            exfalso
            have := List.getElem?_eq_none_iff.mp hg
            rw [numLibNodes] at hn
            omega
          | some g =>
            simp only [copy_db_entry, hm, h5, if_false, hg]
            simp [lookupM]
  refine ⟨h1, ?_⟩
  cases fuel' with
  | zero => omega
  | succ k' => simp only [copy_db_entry, h1]

/-- Witness for C8 at the library gate node `5`. -/
theorem C8_witness :
    lookupM (copy_db_entry ceLib 6 ceMemo0 st0 5).2.1 5
        = some (copy_db_entry ceLib 6 ceMemo0 st0 5).1 ∧
    copy_db_entry ceLib 1 (copy_db_entry ceLib 6 ceMemo0 st0 5).2.1
        (copy_db_entry ceLib 6 ceMemo0 st0 5).2.2 5
      = ((copy_db_entry ceLib 6 ceMemo0 st0 5).1,
         (copy_db_entry ceLib 6 ceMemo0 st0 5).2.1,
         (copy_db_entry ceLib 6 ceMemo0 st0 5).2.2) :=
  C8_memo_correctness ceLib ceMemo0 st0 5 6 1
    (by intro i hi; interval_cases i <;> rfl) (by decide) (by decide) (by decide)

/-- Claim C9: reconstruction termination.  A successfully decoded library is
in topological order — every fanin of a gate refers to an already-defined
node — so the recursive copy of node `n` is insensitive to any fuel beyond
`n + 1`: the recursion depth is bounded by the node id (hence by the library
subcircuit depth). -/
theorem C9_reconstruction_termination (data : List Nat) (lib : LibGraph)
    (hdec : decode data = some lib) :
    topological lib ∧
    ∀ (memo : List (Nat × Sig)) (st : TNet) (n fuel : Nat),
      n < numLibNodes lib → n < fuel →
      copy_db_entry lib fuel memo st n = copy_db_entry lib (n + 1) memo st n :=
  ⟨decode_topological data lib hdec,
   fun memo st n fuel hn hf =>
     copy_db_entry_fuel lib (decode_topological data lib hdec) fuel (n + 1) memo
       st n hn hf (Nat.lt_succ_self n)⟩

/-- Witness for C9 at the decoded one-gate library. -/
theorem C9_witness :
    topological ceLib ∧
    ∀ (memo : List (Nat × Sig)) (st : TNet) (n fuel : Nat),
      n < numLibNodes ceLib → n < fuel →
      copy_db_entry ceLib fuel memo st n = copy_db_entry ceLib (n + 1) memo st n :=
  C9_reconstruction_termination ceData ceLib rfl

/-- Claim C10 (implicit): unguarded leaf copy.  The operator copies the leaf
range into a fixed buffer of exactly 4 signals with no bounds check: with at
most 4 leaves every written index is below 4 (the copy stays in bounds),
while with more than 4 leaves there is no defensive handling — the copy
overflows (modelled as `seedPis = none`) and a query that reaches the copy
yields no result. -/
theorem C10_leaf_copy (leaves : List Sig) :
    (leaves.length ≤ 4 →
      (∀ j ∈ List.range leaves.length, j < 4) ∧ (seedPis leaves).isSome) ∧
    (4 < leaves.length → seedPis leaves = none ∧
      ∀ (lib : LibGraph) (st : TNet) (d : DynTT) (fn : Sig → Bool) (qtt : TT),
        extend_to4 d = some qtt →
        classLookup (build_db lib) (repr_table qtt).1 ≠ [] →
        xag_npn_op lib st d leaves fn = none) := by
  constructor
  · intro h4
    refine ⟨fun j hj => ?_, ?_⟩
    · have := List.mem_range.mp hj
      omega
    · rw [seedPis, if_pos h4]
      rfl
  · intro h4
    have hsp : seedPis leaves = none := by
      rw [seedPis, if_neg (by omega)]
    refine ⟨hsp, ?_⟩
    intro lib st d fn qtt hext hne
    rcases hrt : repr_table qtt with ⟨reprT, phase, perm⟩
    rw [hrt] at hne
    simp only at hne
    simp only [xag_npn_op, hext, hrt, hsp]
    rw [if_neg hne]

/-- Witness for C10: the in-bounds half at the 4 supplied leaves, and the
overflow half at 5 supplied leaves with a query whose class is covered. -/
theorem C10_witness :
    ((∀ j ∈ List.range ceLeaves.length, j < 4) ∧ (seedPis ceLeaves).isSome) ∧
    seedPis ceLeaves5 = none ∧
    xag_npn_op ceLib st0 ⟨4, 34952⟩ ceLeaves5 (fun _ => true) = none := by
  refine ⟨(C10_leaf_copy ceLeaves).1 (by decide), ?_, ?_⟩
  · exact ((C10_leaf_copy ceLeaves5).2 (by decide)).1
  · exact ((C10_leaf_copy ceLeaves5).2 (by decide)).2 ceLib st0 ⟨4, 34952⟩
      (fun _ => true) 34952 ce_ext_q (by simp only [ce_canon_q, ce_build_db]; decide)

end XagNpn
